import Mathlib

/-!
# Collective communication in ParallelProgrammingWithMPI

A shallow embedding of the C programs of the repository:

* `integral_tree_send.c`  : `ceiling_log2`, `I_receive`, `I_send`, `Send`, `Receive`,
  `Get_data1` (hand-coded tree broadcast), `main` (trapezoid rule and reduce block);
* `integral_using_mpi_bcast.c` : the same `main` as `integral_tree_send.c`;
* `integral_parallel.c`   : `main`, `calculate_integral`, `f`;
* `integral_seq.c`        : `main` (sequential trapezoid rule);
* `parellel_dot_mpi_reduce.c` : `main`, `Read_vector`, `Parallel_dot`, `serial_dot`;
* `parellel_dot_mpi_all_reduce.c` : the same functions with `MPI_Allreduce`, and
  `print_result`.

Conventions of the embedding.

* A C `int` is an `Int`; the result of an `int` operation that can leave the 32-bit range is
  passed through `wrap32` (wrap-around in two-complement representation, what the hardware
  computes; ISO C leaves signed overflow undefined).  `unsigned` values are `Nat` reduced
  modulo `2 ^ 32`.
* An out-parameter (`int *source_ptr`) is modelled by passing the old contents of the
  variable and returning the new contents next to the return value.
* `float` values that are only copied are elements of an arbitrary type `F`; `float`
  arithmetic is taken exactly, in `ℚ`.
* Every process runs the same program; the processes of a run are indexed by their rank and
  the run is described stage by stage (`World`).
-/

namespace ParallelMPI

/-! ## Machine integers -/

/-- Reduction of an integer to the range of a 32-bit C `int` (two-complement wrap-around). -/
def wrap32 (x : Int) : Int := (x + 2147483648) % 4294967296 - 2147483648

/-- The C conversion `(unsigned) x`. -/
def to_unsigned (x : Int) : Nat := (x % 4294967296).toNat

/-- The `int` whose object representation is the 32-bit word `w` (two-complement). -/
def to_signed (w : Nat) : Int :=
  if w < 2147483648 then (w : Int) else (w : Int) - 4294967296

/-- The C expression `x << count` on `int` operands: the product with `2 ^ count`, wrapped.
The stage loop only shifts by counts in `0 .. 31`; C leaves other counts undefined (the
model takes a negative count as 0). -/
def shl32 (x count : Int) : Int := wrap32 (x * 2 ^ count.toNat)

/-! ## integral_tree_send.c : stage calculus -/

/-- The `while (temp != 0)` loop of `ceiling_log2`: `temp = temp >> 1; result += 1`.
`result` never exceeds 32, so the increment needs no wrap. -/
def ceiling_log2_loop (temp : Nat) (result : Int) : Int :=
  if temp ≠ 0 then ceiling_log2_loop (temp / 2) (result + 1) else result
termination_by temp
decreasing_by omega

/-- The function `int ceiling_log2(int x)`: `unsigned temp = (unsigned) x - 1`, then the loop. -/
def ceiling_log2 (x : Int) : Int :=
  ceiling_log2_loop (to_unsigned ((to_unsigned x : Int) - 1)) 0

/-- The function `int I_receive(int stage, int my_rank, int *source_ptr)`.
The first component is the return value, the second the contents of `*source_ptr` after the
call (`source` is its contents before the call). -/
def I_receive (stage my_rank source : Int) : Int × Int :=
  let power_2_stage := shl32 1 stage
  if power_2_stage ≤ my_rank ∧ my_rank < wrap32 (2 * power_2_stage) then
    (1, wrap32 (my_rank - power_2_stage))
  else
    (0, source)

/-- The function `int I_send(int stage, int my_rank, int no_of_process, int *dest_ptr)`.
The first component is the return value, the second the contents of `*dest_ptr` after the
call; the destination is written before the test against `no_of_process`. -/
def I_send (stage my_rank no_of_process dest : Int) : Int × Int :=
  let power_2_stage := shl32 1 stage
  if my_rank < power_2_stage then
    let dest := wrap32 (my_rank + power_2_stage)
    if dest ≥ no_of_process then (0, dest) else (1, dest)
  else
    (0, dest)

/-! ## integral_tree_send.c : Send and Receive -/

/-- Position of the leading one bit of a magnitude `1 ≤ m < 2 ^ 32`. -/
def leading_bit (m : Nat) : Nat :=
  (List.range 32).foldl (fun e i => if 2 ^ i ≤ m then i else e) 0

/-- The 32-bit word that holds the `float` obtained from the `int` `x` by the C conversion
`(float) x` (IEEE-754 binary32, round to nearest, ties to even): sign bit, biased exponent,
23 fraction bits.  This is the object `Send` has in its parameter `float n`. -/
def float_bits (x : Int) : Nat :=
  if x = 0 then 0
  else
    let sign := if x < 0 then 1 else 0
    let m := x.natAbs
    let e := leading_bit m
    let significand :=
      if e ≤ 23 then m * 2 ^ (23 - e)
      else
        let q := m / 2 ^ (e - 23)
        let rest := m % 2 ^ (e - 23)
        let half := 2 ^ (e - 24)
        if rest > half ∨ (rest = half ∧ q % 2 = 1) then q + 1 else q
    sign * 2147483648 + (127 + e) * 8388608 + (significand - 8388608)

/-- The variables of one process inside `Get_data1`: the objects behind `a_ptr`, `b_ptr`,
`n_ptr` and the locals `source`, `dest`. -/
structure Proc (F : Type) where
  a : F
  b : F
  n : Int
  source : Int
  dest : Int
deriving DecidableEq

/-- The three words one call of `Send` transmits (tags 0, 1 and 2). -/
structure Packet (F : Type) where
  a : F
  b : F
  n_word : Nat
deriving DecidableEq

/-- The MPI call a process makes in one iteration of the stage loop of `Get_data1`. -/
inductive Call where
  | receive (source : Int)
  | send (dest : Int)
  | idle
deriving DecidableEq

variable {F : Type}

/-- The function `void Send(float a, float b, float n, int dest)`: the `int` count of the
caller is converted to the parameter `float n`, and `MPI_Send(&n, 1, MPI_INT, dest, 2, ..)`
transmits the word of that `float` object.  Returns the destination and the words sent. -/
def Send (a b : F) (n : Int) (dest : Int) : Int × Packet F :=
  (dest, { a := a, b := b, n_word := float_bits n })

/-- The function `void Receive(float *a_ptr, float *b_ptr, int *n_ptr, int source)` applied
to the words that arrive: `MPI_Recv(n_ptr, 1, MPI_FLOAT, source, 2, ..)` stores the third
word through the `int` pointer. -/
def Receive (p : Proc F) (pk : Packet F) : Proc F :=
  { p with a := pk.a, b := pk.b, n := to_signed pk.n_word }

/-! ## integral_tree_send.c : Get_data1 -/

/-- The body of the stage loop of `Get_data1` up to the MPI call:
`if (I_receive(stage, my_rank, &source)) Receive(..) else if (I_send(.., &dest)) Send(..)`.
Returns the process with `source` and `dest` as the two tests leave them, and the call. -/
def Get_data1_body (stage my_rank no_of_process : Int) (p : Proc F) : Proc F × Call :=
  let r := I_receive stage my_rank p.source
  if r.1 ≠ 0 then ({ p with source := r.2 }, Call.receive r.2)
  else
    let s := I_send stage my_rank no_of_process p.dest
    if s.1 ≠ 0 then ({ p with source := r.2, dest := s.2 }, Call.send s.2)
    else ({ p with source := r.2, dest := s.2 }, Call.idle)

/-- The processes of one run at the start of a stage, by rank: `some p` for a process that
reached the stage with variables `p`, `none` for a rank that is not in the group or a process
that stays blocked in an earlier MPI call. -/
abbrev World (F : Type) := Int → Option (Proc F)

/-- What process `q` hands to `Send` in this stage, when its iteration of the loop of
`Get_data1` reaches `Send`: destination and words. -/
def posted (stage no_of_process : Int) (w : World F) (q : Int) : Option (Int × Packet F) :=
  match w q with
  | none => none
  | some p =>
    match Get_data1_body stage q no_of_process p with
    | (p1, Call.send dest) => some (Send p1.a p1.b p1.n dest)
    | _ => none

/-- The rank process `q` passes to `Receive` in this stage, when its iteration of the loop
of `Get_data1` reaches `Receive`. -/
def awaited (stage no_of_process : Int) (w : World F) (q : Int) : Option Int :=
  match w q with
  | none => none
  | some p =>
    match Get_data1_body stage q no_of_process p with
    | (_, Call.receive source) => some source
    | _ => none

/-- Modelled from the spec: the Transport (`MPI_Send` and `MPI_Recv` are calls into the MPI
library, which is not part of the repository) is a synchronous rendezvous.  One iteration of
the stage loop of `Get_data1`, run by every process: a `Receive` completes with the words its
source sends to the caller in this stage, a `Send` completes when its destination receives
from the caller in this stage, and a call without its match blocks. -/
def stage_step (stage no_of_process : Int) (w : World F) : World F := fun my_rank =>
  match w my_rank with
  | none => none
  | some p =>
    match Get_data1_body stage my_rank no_of_process p with
    | (p1, Call.receive source) =>
      match posted stage no_of_process w source with
      | some (dest, pk) => if dest = my_rank then some (Receive p1 pk) else none
      | none => none
    | (p1, Call.send dest) =>
      if awaited stage no_of_process w dest = some my_rank then some p1 else none
    | (p1, Call.idle) => some p1

/-- The loop `for (int stage = 0; stage < ceiling_log2(no_of_process); stage++)` of
`Get_data1`, from the value `stage` of the loop variable on. -/
def Get_data1_loop (no_of_process : Int) (stage : Int) (w : World F) : World F :=
  if stage < ceiling_log2 no_of_process then
    Get_data1_loop no_of_process (stage + 1) (stage_step stage no_of_process w)
  else w
termination_by (ceiling_log2 no_of_process - stage).toNat
decreasing_by omega

/-- The processes at the entry of the stage loop: ranks `0 .. no_of_process - 1`; process 0
has read `a`, `b`, `n` with `scanf`, every other variable holds what it held before
(`init`: uninitialised, arbitrary). -/
def start (no_of_process : Int) (a b : F) (n : Int) (init : Int → Proc F) : World F :=
  fun my_rank =>
    if 0 ≤ my_rank ∧ my_rank < no_of_process then
      if my_rank = 0 then some { init my_rank with a := a, b := b, n := n }
      else some (init my_rank)
    else none

/-- The function `Get_data1` run by all processes of a group of `no_of_process` ranks:
the variables of every process on return. -/
def Get_data1 (no_of_process : Int) (a b : F) (n : Int) (init : Int → Proc F) : World F :=
  Get_data1_loop no_of_process 0 (start no_of_process a b n init)

/-! ## The reduce block of `main` (integral_tree_send.c, integral_parallel.c) -/

/-- The `else` branch of the reduce block: a process other than 0 calls
`MPI_Send(&integral, 1, MPI_FLOAT, dest, tag, ..)` once with `dest = 0`, `tag = 0`;
process 0 sends nothing.  The list holds (destination, tag, value). -/
def reduce_sends (my_rank : Int) (integral : ℚ) : List (Int × Int × ℚ) :=
  if my_rank = 0 then [] else [(0, 0, integral)]

/-- Modelled from the spec: the Transport (`MPI_Recv`).  The value
`MPI_Recv(&integral, 1, MPI_FLOAT, source, tag, ..)` delivers to process 0 in a group of
`no_of_process` ranks with local values `integral`, when `source` sends one; `none` when the
call blocks. -/
def reduce_recv (no_of_process : Int) (integral : Int → ℚ) (source tag : Int) : Option ℚ :=
  if 0 ≤ source ∧ source < no_of_process then
    ((reduce_sends source (integral source)).find?
      (fun m => decide (m.1 = 0 ∧ m.2.1 = tag))).map (fun m => m.2.2)
  else none

/-- The loop `for (source = 1; source < no_of_process; source++)` of process 0:
`MPI_Recv(&integral, .., source, tag, ..); total += integral`. -/
def reduce_loop (no_of_process : Int) (integral : Int → ℚ) (source : Int) (total : ℚ) :
    Option ℚ :=
  if source < no_of_process then
    match reduce_recv no_of_process integral source 0 with
    | some received => reduce_loop no_of_process integral (source + 1) (total + received)
    | none => none
  else some total
termination_by (no_of_process - source).toNat
decreasing_by omega

/-- The reduce block as process 0 runs it: `total = integral`, then the loop.  `integral r`
is the local value of rank `r`; the result is `total`, or `none` when process 0 blocks. -/
def reduce_block (no_of_process : Int) (integral : Int → ℚ) : Option ℚ :=
  reduce_loop no_of_process integral 1 (integral 0)

/-! ## The trapezoid rule (integral_parallel.c, integral_tree_send.c, integral_seq.c) -/

/-- The function `float f(float x)`: `x * x`. -/
def f (x : ℚ) : ℚ := x * x

/-- The loop `for (i = 1; i <= local_n - 1; i++)` of `calculate_integral`:
`x = x + h; integral = integral + f(x)`.  Returns `x` and `integral` at the exit. -/
def calculate_integral_loop (local_n h : ℚ) (i : Int) (x integral : ℚ) : ℚ × ℚ :=
  if (i : ℚ) ≤ local_n - 1 then
    calculate_integral_loop local_n h (i + 1) (x + h) (integral + f (x + h))
  else (x, integral)
termination_by (⌊local_n - 1⌋ + 1 - i).toNat
decreasing_by
  have hi : i ≤ ⌊local_n - 1⌋ := Int.le_floor.mpr (by assumption)
  omega

/-- The function `float calculate_integral(float local_a, float local_b, float local_n,
float h)`. -/
def calculate_integral (local_a local_b local_n h : ℚ) : ℚ :=
  let integral := (f local_a + f local_b) / 2
  (calculate_integral_loop local_n h 1 local_a integral).2 * h

/-- The local computation of `main` in integral_parallel.c for the process of rank
`my_rank` (the file hardwires `a = 0.0`, `b = 1.0`, `n = 1024`):
`h = (b-a)/n; local_n = n/no_of_process; local_a = a + my_rank * local_n * h;
local_b = local_a + local_n * h; integral = calculate_integral(..)`. -/
def integral_parallel_local (a b : ℚ) (n no_of_process my_rank : Int) : ℚ :=
  let h := (b - a) / (n : ℚ)
  let local_n := Int.tdiv n no_of_process
  let local_a := a + ((wrap32 (my_rank * local_n) : Int) : ℚ) * h
  let local_b := local_a + (local_n : ℚ) * h
  calculate_integral local_a local_b (local_n : ℚ) h

/-- The `total` process 0 prints in integral_parallel.c. -/
def integral_parallel_main (a b : ℚ) (n no_of_process : Int) : Option ℚ :=
  reduce_block no_of_process (integral_parallel_local a b n no_of_process)

/-- The local computation of `main` in integral_tree_send.c (and of its copy in
integral_using_mpi_bcast.c) after the broadcast has stored `a`, `b`, `no_of_trapezoids`:
`h = (b - a) / no_of_process; local_n = no_of_trapezoids / no_of_process; ..`. -/
def integral_tree_send_local (a b : ℚ) (no_of_trapezoids no_of_process my_rank : Int) : ℚ :=
  let h := (b - a) / (no_of_process : ℚ)
  let local_n := Int.tdiv no_of_trapezoids no_of_process
  let local_a := a + ((wrap32 (my_rank * local_n) : Int) : ℚ) * h
  let local_b := local_a + (local_n : ℚ) * h
  calculate_integral local_a local_b (local_n : ℚ) h

/-- The `total` process 0 prints in integral_tree_send.c, every process holding the same
`a`, `b`, `no_of_trapezoids`. -/
def integral_tree_send_main (a b : ℚ) (no_of_trapezoids no_of_process : Int) : Option ℚ :=
  reduce_block no_of_process (integral_tree_send_local a b no_of_trapezoids no_of_process)

/-- The loop `for (int i = 1; i <= n-1; i++)` of `main` in integral_seq.c:
`x += h; integral += f(x)`. -/
def integral_seq_loop (n : Int) (h : ℚ) (i : Int) (x integral : ℚ) : ℚ × ℚ :=
  if i ≤ n - 1 then integral_seq_loop n h (i + 1) (x + h) (integral + f (x + h))
  else (x, integral)
termination_by (n - i).toNat
decreasing_by omega

/-- The estimate `main` of integral_seq.c prints for the input `a`, `b`, `n`. -/
def integral_seq_main (a b : ℚ) (n : Int) : ℚ :=
  let h := (b - a) / (n : ℚ)
  let integral := (f a + f b) / 2
  (integral_seq_loop n h 1 a integral).2 * h

/-- The trapezoid estimate in the words of the specification:
`h * ((f(a) + f(b)) / 2 + sum_{i=1}^{n-1} f(a + i*h))` with `h = (b - a) / n`. -/
def trapezoid_estimate (a b : ℚ) (n : Nat) : ℚ :=
  (b - a) / (n : ℚ) *
    ((f a + f b) / 2 + ∑ i ∈ Finset.Ico 1 n, f (a + (i : ℚ) * ((b - a) / (n : ℚ))))

/-! ## Invariants of the stage loop -/

/-- Every rank of the group has reached the stage, and the ranks below `2 ^ stage` hold the
bounds of rank 0. -/
def Holds (no_of_process : Int) (a b : F) (stage : Int) (w : World F) : Prop :=
  ∀ r : Int, 0 ≤ r → r < no_of_process →
    ∃ p, w r = some p ∧ (r < 2 ^ stage.toNat → p.a = a ∧ p.b = b)

/-! ## One process in the stage loop of Get_data1 -/

/-- The MPI calls the process of rank `my_rank` reaches in the stage loop of `Get_data1`, one
entry per iteration from the value `stage` of the loop variable on (`Call.idle` for an
iteration without a call), every earlier call having completed.  `I_receive` and `I_send`
read the stage, the rank and the group size only, so the words a `Receive` stores do not
change the later entries. -/
def Get_data1_calls (no_of_process my_rank : Int) (stage : Int) (p : Proc F) : List Call :=
  if stage < ceiling_log2 no_of_process then
    (Get_data1_body stage my_rank no_of_process p).2 ::
      Get_data1_calls no_of_process my_rank (stage + 1)
        (Get_data1_body stage my_rank no_of_process p).1
  else []
termination_by (ceiling_log2 no_of_process - stage).toNat
decreasing_by omega

/-- The sources of the `MPI_Recv` calls of process 0 in the loop
`for (source = 1; source < no_of_process; source++)` of the reduce block, from the value
`source` of the loop variable on. -/
def reduce_recv_calls (no_of_process source : Int) : List Int :=
  if source < no_of_process then source :: reduce_recv_calls no_of_process (source + 1)
  else []
termination_by (no_of_process - source).toNat
decreasing_by omega

/-- The processes at the start of the iteration `stage` of the stage loop of `Get_data1`:
the iterations `0 .. stage - 1` applied to the processes `w` at the entry of the loop. -/
def Get_data1_stages (no_of_process : Int) (w : World F) : Nat → World F
  | 0 => w
  | stage + 1 => stage_step (stage : Int) no_of_process (Get_data1_stages no_of_process w stage)

/-- The iterations of the stage loop of `Get_data1` as the process of rank `my_rank` runs
them, up to the first one in which `I_receive` returns nonzero: that stage and the source
`I_receive` writes, or `none` when the loop ends without a `Receive`. -/
def receive_stage (no_of_process my_rank : Int) (stage : Int) : Option (Int × Int) :=
  if stage < ceiling_log2 no_of_process then
    if (I_receive stage my_rank 0).1 ≠ 0 then some (stage, (I_receive stage my_rank 0).2)
    else receive_stage no_of_process my_rank (stage + 1)
  else none
termination_by (ceiling_log2 no_of_process - stage).toNat
decreasing_by omega

/-- The way of the payload to the rank `r`, followed backwards: `r` is replaced by the source
of its `Receive` until rank 0 is reached.  Each hop is the stage of the `Receive` and its
source; `fuel` bounds the number of hops. -/
def route (no_of_process : Int) : Nat → Int → Option (List (Int × Int))
  | 0, r => if r = 0 then some [] else none
  | fuel + 1, r =>
    if r = 0 then some []
    else
      match receive_stage no_of_process r 0 with
      | some (s, source) =>
        (route no_of_process fuel source).map (fun hops => (s, source) :: hops)
      | none => none

/-! ## Invariants of the stage loop, continued -/

/-- Every rank of the group has reached the stage; the ranks below `2 ^ stage` hold the
bounds of rank 0 and the other ranks the bounds they started with. -/
def Holders (no_of_process : Int) (a b : F) (init : Int → Proc F) (stage : Int)
    (w : World F) : Prop :=
  ∀ r : Int, 0 ≤ r → r < no_of_process →
    ∃ p, w r = some p ∧ (r < 2 ^ stage.toNat → p.a = a ∧ p.b = b) ∧
      (2 ^ stage.toNat ≤ r → p.a = (init r).a ∧ p.b = (init r).b)

/-- A list of hops leads from the rank `r` to rank 0: every hop is the `Receive` of the rank
reached so far, at a stage below `bound` and below the stage of the hop before, from a
smaller rank inside the group. -/
def good_route (no_of_process : Int) : Int → Int → List (Int × Int) → Prop
  | r, _, [] => r = 0
  | r, bound, (s, source) :: hops =>
    0 ≤ s ∧ s < bound ∧ I_receive s r 0 = (1, source) ∧ 0 ≤ source ∧ source < r ∧
      source < no_of_process ∧ good_route no_of_process source s hops

/-! ## parellel_dot_mpi_reduce.c and parellel_dot_mpi_all_reduce.c

A `float` array is a function from indices to values; the arrays of all processes are given
by rank, `none` for a process that stays blocked (or a rank outside the group). -/

/-- The macro `MAX_LOCAL_ORDER`, the length of `local_x`, `local_y` and `temp_arr`. -/
def MAX_LOCAL_ORDER : Int := 100

/-- The loop `for (i = 0; i < local_arr_size; i++) scanf("%f", &v[i])` of `Read_vector`, from
the value `i` of the loop variable on.  Standard input is the sequence `stdin`, read from the
position `pos`.  Returns the array and the position after the loop, `none` when a store
falls outside the `MAX_LOCAL_ORDER` elements of the array. -/
def Read_vector_scan (stdin : Nat → ℚ) (local_arr_size : Int) (i : Int) (pos : Nat)
    (v : Int → ℚ) : Option ((Int → ℚ) × Nat) :=
  if i < local_arr_size then
    if 0 ≤ i ∧ i < MAX_LOCAL_ORDER then
      Read_vector_scan stdin local_arr_size (i + 1) (pos + 1) (Function.update v i (stdin pos))
    else none
  else some (v, pos)
termination_by (local_arr_size - i).toNat
decreasing_by omega

/-- The loop `for (process = 1; process < no_of_process; process++)` of `Read_vector` in
process 0, from the value `process` of the loop variable on: the scan into `temp_arr`, then
`MPI_Send(temp_arr, local_arr_size, MPI_FLOAT, process, 0, ..)`.  `sent d` is the array handed
to `MPI_Send` for the destination `d` (its first `local_arr_size` elements are the message). -/
def Read_vector_send_loop (stdin : Nat → ℚ) (local_arr_size no_of_process : Int)
    (process : Int) (pos : Nat) (temp_arr : Int → ℚ) (sent : Int → Option (Int → ℚ)) :
    Option ((Int → Option (Int → ℚ)) × Nat) :=
  if process < no_of_process then
    match Read_vector_scan stdin local_arr_size 0 pos temp_arr with
    | some (temp_arr1, pos1) =>
      Read_vector_send_loop stdin local_arr_size no_of_process (process + 1) pos1 temp_arr1
        (Function.update sent process (some temp_arr1))
    | none => none
  else some (sent, pos)
termination_by (no_of_process - process).toNat
decreasing_by omega

/-- The branch `my_rank == 0` of `Read_vector`: the scan into `local_v`, then the loop over
the other processes with `temp_arr` initialised to zeros.  Returns `local_v`, the messages
sent and the position of standard input. -/
def Read_vector_root (stdin : Nat → ℚ) (local_arr_size no_of_process : Int) (pos : Nat)
    (local_v : Int → ℚ) : Option ((Int → ℚ) × (Int → Option (Int → ℚ)) × Nat) :=
  match Read_vector_scan stdin local_arr_size 0 pos local_v with
  | some (local_v1, pos1) =>
    match Read_vector_send_loop stdin local_arr_size no_of_process 1 pos1 (fun _ => 0)
        (fun _ => none) with
    | some (sent, pos2) => some (local_v1, sent, pos2)
    | none => none
  | none => none

/-- The `else` branch of `Read_vector`:
`MPI_Recv(local_v, local_arr_size, MPI_FLOAT, 0, 0, ..)` stores the `local_arr_size` elements
of the message of process 0 into `local_v`.  `none` when no message comes (the call blocks)
or the store falls outside the array. -/
def Read_vector_recv (local_arr_size : Int) (local_v : Int → ℚ)
    (message : Option (Int → ℚ)) : Option (Int → ℚ) :=
  match message with
  | some m =>
    if local_arr_size ≤ MAX_LOCAL_ORDER then
      some (fun i => if 0 ≤ i ∧ i < local_arr_size then m i else local_v i)
    else none
  | none => none

/-- Modelled from the spec: the Transport (`MPI_Send` and `MPI_Recv` are calls into the MPI
library, which is not part of the repository) delivers to a process the message process 0
sent to it.  The function `Read_vector` run by every process of the group: the array
`local_v` of every rank after the call, and the position of standard input in process 0. -/
def Read_vector (stdin : Nat → ℚ) (local_arr_size no_of_process : Int) (pos : Nat)
    (local_v : Int → Int → ℚ) : Option ((Int → Option (Int → ℚ)) × Nat) :=
  match Read_vector_root stdin local_arr_size no_of_process pos (local_v 0) with
  | some (v0, sent, pos1) =>
    some (fun my_rank =>
      if my_rank = 0 then some v0
      else if 0 ≤ my_rank ∧ my_rank < no_of_process then
        Read_vector_recv local_arr_size (local_v my_rank) (sent my_rank)
      else none, pos1)
  | none => none

/-- The loop `for (i = 0; i < n; i++) sum += x[i]*y[i]` of `serial_dot`. -/
def serial_dot_loop (x y : Int → ℚ) (n : Int) (i : Int) (sum : ℚ) : ℚ :=
  if i < n then serial_dot_loop x y n (i + 1) (sum + x i * y i) else sum
termination_by (n - i).toNat
decreasing_by omega

/-- The function `float serial_dot(float x[], float y[], int n)`. -/
def serial_dot (x y : Int → ℚ) (n : Int) : ℚ := serial_dot_loop x y n 0 0

/-- The statement `local_dot = serial_dot(local_x, local_y, vector_size)` of `Parallel_dot`
in every process. -/
def local_dots (local_x local_y : Int → Option (Int → ℚ)) (vector_size : Int) :
    Int → Option ℚ := fun my_rank =>
  match local_x my_rank, local_y my_rank with
  | some x, some y => some (serial_dot x y vector_size)
  | _, _ => none

/-- Modelled from the spec: `Reduce` (the call
`MPI_Reduce(&local_dot, &dot, 1, MPI_FLOAT, MPI_SUM, 0, ..)` goes into the MPI library, which
is not part of the repository).  Rank 0 initialises the aggregate with its own value and
folds in the values of the ranks `1 .. no_of_process - 1`; the aggregate is on rank 0 only,
every other rank keeps its `recvbuf`.  `none` when a value never comes. -/
def MPI_Reduce_SUM (no_of_process : Int) (value : Int → Option ℚ) (my_rank : Int)
    (recvbuf : ℚ) : Option ℚ :=
  if my_rank = 0 then
    (List.range' 1 (no_of_process.toNat - 1)).foldl
      (fun total (source : Nat) =>
        match total, value (source : Int) with
        | some t, some v => some (t + v)
        | _, _ => none)
      (value 0)
  else (value my_rank).map (fun _ => recvbuf)

/-- Modelled from the spec: `Allreduce` (the call
`MPI_Allreduce(&local_dot, &dot, 1, MPI_FLOAT, MPI_SUM, ..)` goes into the MPI library):
`Reduce` followed by `Broadcast` of the aggregate, so that every rank of the group leaves
with the aggregate of rank 0. -/
def MPI_Allreduce_SUM (no_of_process : Int) (value : Int → Option ℚ) (my_rank : Int) :
    Option ℚ :=
  if 0 ≤ my_rank ∧ my_rank < no_of_process then MPI_Reduce_SUM no_of_process value 0 0
  else none

/-- The function `Parallel_dot` of parellel_dot_mpi_reduce.c in the process `my_rank`:
`dot = 0.0`, the local dot product, `MPI_Reduce`, `return dot`. -/
def Parallel_dot (no_of_process : Int) (local_x local_y : Int → Option (Int → ℚ))
    (vector_size : Int) (my_rank : Int) : Option ℚ :=
  MPI_Reduce_SUM no_of_process (local_dots local_x local_y vector_size) my_rank 0

/-- The function `Parallel_dot` of parellel_dot_mpi_all_reduce.c in the process `my_rank`:
the local dot product, `MPI_Allreduce`, `return dot`. -/
def Parallel_dot_allreduce (no_of_process : Int) (local_x local_y : Int → Option (Int → ℚ))
    (vector_size : Int) (my_rank : Int) : Option ℚ :=
  MPI_Allreduce_SUM no_of_process (local_dots local_x local_y vector_size) my_rank

/-- The number `main` of parellel_dot_mpi_reduce.c prints in process 0: the order
`global_arr_size` is broadcast with `MPI_Bcast`, `local_arr_size = global_arr_size /
no_of_process`, the two calls of `Read_vector` read standard input one after the other,
then `Parallel_dot`.  `init_x r` and `init_y r` are the uninitialised arrays of rank `r`. -/
def parallel_dot_main (stdin : Nat → ℚ) (global_arr_size no_of_process : Int)
    (init_x init_y : Int → Int → ℚ) : Option ℚ :=
  let local_arr_size := Int.tdiv global_arr_size no_of_process
  match Read_vector stdin local_arr_size no_of_process 0 init_x with
  | some (local_x, pos1) =>
    match Read_vector stdin local_arr_size no_of_process pos1 init_y with
    | some (local_y, _) => Parallel_dot no_of_process local_x local_y local_arr_size 0
    | none => none
  | none => none

/-- The loop `for (int process = 1; process < no_of_process; process++)` of `print_result` in
process 0, from the value `process` of the loop variable on.  Modelled from the spec: the
Transport delivers to `MPI_Recv(&received_result, 1, MPI_FLOAT, process, 0, ..)` the `dot`
that `process` hands to `MPI_Send` in the `else` branch.  `out` lists the lines printed so
far (process and number). -/
def print_result_loop (no_of_process : Int) (dot : Int → Option ℚ) (process : Int)
    (out : List (Int × ℚ)) : Option (List (Int × ℚ)) :=
  if process < no_of_process then
    match dot process with
    | some received_result =>
      print_result_loop no_of_process dot (process + 1) (out ++ [(process, received_result)])
    | none => none
  else some out
termination_by (no_of_process - process).toNat
decreasing_by omega

/-- The function `print_result` as process 0 runs it: the line of process 0, then the loop.
`dot r` is the argument `dot` of the process of rank `r`. -/
def print_result (no_of_process : Int) (dot : Int → Option ℚ) : Option (List (Int × ℚ)) :=
  match dot 0 with
  | some d0 => print_result_loop no_of_process dot 1 [(0, d0)]
  | none => none

/-- The lines `main` of parellel_dot_mpi_all_reduce.c prints in process 0. -/
def parallel_dot_allreduce_main (stdin : Nat → ℚ) (global_arr_size no_of_process : Int)
    (init_x init_y : Int → Int → ℚ) : Option (List (Int × ℚ)) :=
  let local_arr_size := Int.tdiv global_arr_size no_of_process
  match Read_vector stdin local_arr_size no_of_process 0 init_x with
  | some (local_x, pos1) =>
    match Read_vector stdin local_arr_size no_of_process pos1 init_y with
    | some (local_y, _) =>
      print_result no_of_process
        (Parallel_dot_allreduce no_of_process local_x local_y local_arr_size)
    | none => none
  | none => none

/-- Standard input that holds the `n` entries of `x` followed by the `n` entries of `y`. -/
def vectors_input (x y : Nat → ℚ) (n : Nat) : Nat → ℚ :=
  fun k => if k < n then x k else y (k - n)

/-! ## One process in `main` of integral_tree_send.c -/

theorem wrap32_of_range {x : Int} (h1 : -2147483648 ≤ x) (h2 : x < 2147483648) :
    wrap32 x = x := by
  unfold wrap32
  omega

theorem two_pow_pos_int (k : Nat) : (1 : Int) ≤ 2 ^ k :=
  one_le_pow₀ (by norm_num)

theorem two_pow_le_int {k m : Nat} (h : k ≤ m) : (2 : Int) ^ k ≤ 2 ^ m :=
  pow_le_pow_right₀ (by norm_num) h

theorem two_pow_toNat_le {s : Int} {m : Nat} (h : s ≤ m) : (2 : Int) ^ s.toNat ≤ 2 ^ m := by
  apply two_pow_le_int
  omega

/-- For `0 ≤ stage ≤ 30` the shift `1 << stage` is the power of two. -/
theorem shl32_one {stage : Int} (h : stage ≤ 30) : shl32 1 stage = 2 ^ stage.toNat := by
  unfold shl32
  have h1 := two_pow_pos_int stage.toNat
  have h2 : (2 : Int) ^ stage.toNat ≤ 2 ^ 30 := two_pow_toNat_le (by exact_mod_cast h)
  norm_num at h2
  rw [one_mul]
  exact wrap32_of_range (by omega) (by omega)

/-! ## ceiling_log2 -/

theorem ceiling_log2_loop_eq (temp : Nat) (result : Int) :
    ceiling_log2_loop temp result = result + (Nat.clog 2 (temp + 1) : Int) := by
  induction temp using Nat.strong_induction_on generalizing result with
  | _ temp ih =>
    rw [ceiling_log2_loop]
    split
    · rename_i h
      rw [ih (temp / 2) (by omega)]
      rw [Nat.clog_of_two_le (by norm_num) (by omega : 2 ≤ temp + 1)]
      have : (temp + 1 + 2 - 1) / 2 = temp / 2 + 1 := by omega
      rw [this]
      push_cast
      ring
    · rename_i h
      have : temp = 0 := by omega
      subst this
      simp

theorem ceiling_log2_eq_clog {x : Int} (h1 : 1 ≤ x) (h2 : x ≤ 4294967296) :
    ceiling_log2 x = (Nat.clog 2 x.toNat : Int) := by
  unfold ceiling_log2
  rw [ceiling_log2_loop_eq]
  have : to_unsigned ((to_unsigned x : Int) - 1) + 1 = x.toNat := by
    unfold to_unsigned
    omega
  rw [this]
  simp

theorem ceiling_log2_least {x : Int} (h1 : 1 ≤ x) (h2 : x ≤ 4294967296) :
    ∃ k : Nat, ceiling_log2 x = (k : Int) ∧ k = Nat.clog 2 x.toNat ∧ x ≤ 2 ^ k ∧
      ∀ j : Nat, x ≤ 2 ^ j → k ≤ j := by
  refine ⟨Nat.clog 2 x.toNat, ceiling_log2_eq_clog h1 h2, rfl, ?_, ?_⟩
  · have h := Nat.le_pow_clog (by norm_num : 1 < 2) x.toNat
    have hx : x = (x.toNat : Int) := by omega
    rw [hx]
    exact_mod_cast h
  · intro j hj
    apply (Nat.le_pow_iff_clog_le (by norm_num : 1 < 2)).mp
    have hx : x = (x.toNat : Int) := by omega
    rw [hx] at hj
    exact_mod_cast hj

theorem ceiling_log2_small :
    ceiling_log2 1 = 0 ∧ ceiling_log2 2 = 1 ∧ ceiling_log2 3 = 2 ∧ ceiling_log2 4 = 2 ∧
      ceiling_log2 5 = 3 := by
  simp [ceiling_log2, ceiling_log2_loop, to_unsigned]

/-! ## I_receive and I_send -/

theorem I_receive_eq {stage : Int} (h : stage ≤ 29) (my_rank source : Int) :
    I_receive stage my_rank source =
      if 2 ^ stage.toNat ≤ my_rank ∧ my_rank < 2 * 2 ^ stage.toNat then
        (1, my_rank - 2 ^ stage.toNat)
      else (0, source) := by
  unfold I_receive
  have hk1 := two_pow_pos_int stage.toNat
  have hk2 : (2 : Int) ^ stage.toNat ≤ 2 ^ 29 := two_pow_toNat_le (by exact_mod_cast h)
  norm_num at hk2
  simp only [shl32_one (by omega : stage ≤ 30)]
  rw [wrap32_of_range (by omega) (by omega)]
  split
  · rename_i hc
    rw [wrap32_of_range (by omega) (by omega)]
  · rfl

theorem I_send_eq {stage : Int} (h : stage ≤ 30) {my_rank : Int} (hr : 0 ≤ my_rank)
    (no_of_process dest : Int) :
    I_send stage my_rank no_of_process dest =
      if my_rank < 2 ^ stage.toNat then
        (if my_rank + 2 ^ stage.toNat ≥ no_of_process then (0, my_rank + 2 ^ stage.toNat)
          else (1, my_rank + 2 ^ stage.toNat))
      else (0, dest) := by
  unfold I_send
  have hk1 := two_pow_pos_int stage.toNat
  have hk2 : (2 : Int) ^ stage.toNat ≤ 2 ^ 30 := two_pow_toNat_le (by exact_mod_cast h)
  norm_num at hk2
  simp only [shl32_one h]
  split
  · rename_i hc
    rw [wrap32_of_range (by omega) (by omega)]
  · rfl

theorem I_receive_I_send_exclusive (stage my_rank no_of_process source dest : Int) :
    ((I_receive stage my_rank source).1 = 0 ∨ (I_receive stage my_rank source).1 = 1) ∧
    ((I_send stage my_rank no_of_process dest).1 = 0 ∨
      (I_send stage my_rank no_of_process dest).1 = 1) ∧
    ¬ ((I_receive stage my_rank source).1 = 1 ∧
        (I_send stage my_rank no_of_process dest).1 = 1) := by
  simp only [I_receive, I_send]
  refine ⟨?_, ?_, ?_⟩
  · split_ifs <;> simp
  · split_ifs <;> simp
  · intro hboth
    obtain ⟨hr, hs⟩ := hboth
    split_ifs at hr hs <;> simp at hr hs
    omega

theorem ceiling_log2_nonneg {x : Int} (h1 : 1 ≤ x) (h2 : x ≤ 4294967296) :
    0 ≤ ceiling_log2 x := by
  rw [ceiling_log2_eq_clog h1 h2]
  exact Int.ofNat_nonneg _

/-- A stage index lies below `ceiling_log2 x` exactly when its power of two lies below `x`. -/
theorem lt_ceiling_log2_iff {x : Int} (h1 : 1 ≤ x) (h2 : x ≤ 4294967296) {s : Int}
    (hs : 0 ≤ s) : s < ceiling_log2 x ↔ 2 ^ s.toNat < x := by
  rw [ceiling_log2_eq_clog h1 h2]
  have hx : x = (x.toNat : Int) := by omega
  have key : s.toNat < Nat.clog 2 x.toNat ↔ 2 ^ s.toNat < x.toNat :=
    (Nat.pow_lt_iff_lt_clog (by norm_num : 1 < 2)).symm
  constructor
  · intro h
    have h3 : s.toNat < Nat.clog 2 x.toNat := by omega
    have h4 := key.mp h3
    rw [hx]
    exact_mod_cast h4
  · intro h
    rw [hx] at h
    have h4 : 2 ^ s.toNat < x.toNat := by exact_mod_cast h
    have h3 := key.mpr h4
    omega

theorem ceiling_log2_le_30 {x : Int} (h1 : 1 ≤ x) (h2 : x ≤ 1073741824) :
    ceiling_log2 x ≤ 30 := by
  by_contra hc
  have h3 : (30 : Int) < ceiling_log2 x := by omega
  have h4 := (lt_ceiling_log2_iff h1 (by omega) (by norm_num : (0 : Int) ≤ 30)).mp h3
  have h5 : (2 : Int) ^ (30 : Int).toNat = 1073741824 := by decide
  omega

theorem le_two_pow_ceiling_log2 {x : Int} (h1 : 1 ≤ x) (h2 : x ≤ 4294967296) :
    x ≤ 2 ^ (ceiling_log2 x).toNat := by
  by_contra hc
  have h3 : (2 : Int) ^ (ceiling_log2 x).toNat < x := by omega
  have h0 := ceiling_log2_nonneg h1 h2
  have h4 := (lt_ceiling_log2_iff h1 h2 h0).mpr h3
  omega

/-- Rank 0 never receives, whatever the stage. -/
theorem I_receive_rank_zero (stage source : Int) : (I_receive stage 0 source).1 = 0 := by
  simp only [I_receive]
  split_ifs with hc
  · exfalso
    obtain ⟨hc1, hc2⟩ := hc
    by_cases hs : stage ≤ 30
    · rw [shl32_one hs] at hc1
      have := two_pow_pos_int stage.toNat
      omega
    · have hk : stage.toNat = 31 + (stage.toNat - 31) := by omega
      have ht : (2 : Int) ^ stage.toNat = 2147483648 * 2 ^ (stage.toNat - 31) := by
        rw [hk, pow_add]
        norm_num
      generalize (2 : Int) ^ (stage.toNat - 31) = t at ht
      unfold shl32 wrap32 at hc2
      rw [ht] at hc2
      omega
  · rfl

theorem two_pow_toNat_succ {s : Int} (hs : 0 ≤ s) :
    (2 : Int) ^ (s + 1).toNat = 2 * 2 ^ s.toNat := by
  have : (s + 1).toNat = s.toNat + 1 := by omega
  rw [this, pow_succ]
  ring

/-- For a rank `1 ≤ r` below a group size `P ≤ 2 ^ 30`, exactly one stage of the loop of
`Get_data1` makes `I_receive` return 1. -/
theorem I_receive_unique_stage {P : Int} (h1 : 1 ≤ P) (h2 : P ≤ 1073741824) {r : Int}
    (hr1 : 1 ≤ r) (hr2 : r < P) (source : Int) :
    ∃! s : Int, 0 ≤ s ∧ s < ceiling_log2 P ∧ (I_receive s r source).1 = 1 := by
  have hL := ceiling_log2_le_30 h1 h2
  obtain ⟨n, rfl⟩ : ∃ n : Nat, r = (n : Int) := ⟨r.toNat, by omega⟩
  have hlog1 : 2 ^ Nat.log 2 n ≤ n := Nat.pow_log_le_self 2 (by omega)
  have hlog2 : n < 2 ^ (Nat.log 2 n + 1) := Nat.lt_pow_succ_log_self (by norm_num) _
  have e1 : (2 : Int) ^ Nat.log 2 n ≤ (n : Int) := by exact_mod_cast hlog1
  have e2 : (n : Int) < 2 * (2 : Int) ^ Nat.log 2 n := by
    have : ((n : Nat) : Int) < ((2 ^ (Nat.log 2 n + 1) : Nat) : Int) := by
      exact_mod_cast hlog2
    rw [pow_succ] at this
    push_cast at this
    omega
  have hsL : ((Nat.log 2 n : Nat) : Int) < ceiling_log2 P := by
    rw [lt_ceiling_log2_iff h1 (by omega) (Int.ofNat_nonneg _)]
    simp only [Int.toNat_ofNat]
    omega
  refine ⟨(Nat.log 2 n : Int), ⟨Int.ofNat_nonneg _, hsL, ?_⟩, ?_⟩
  · rw [I_receive_eq (by omega)]
    simp only [Int.toNat_ofNat]
    rw [if_pos ⟨e1, e2⟩]
  · rintro s ⟨hs0, hsL2, hs1⟩
    rw [I_receive_eq (by omega)] at hs1
    split_ifs at hs1 with hc
    · obtain ⟨c1, c2⟩ := hc
      have hsn : s = (s.toNat : Int) := by omega
      rw [hsn]
      congr 1
      symm
      apply Nat.log_eq_of_pow_le_of_lt_pow
      · exact_mod_cast c1
      · have : ((n : Nat) : Int) < ((2 ^ (s.toNat + 1) : Nat) : Int) := by
          rw [pow_succ]
          push_cast
          omega
        exact_mod_cast this
    · simp at hs1

/-! ## The stage loop of Get_data1 -/

theorem Get_data1_body_receive {stage : Int} (h : stage ≤ 29) {my_rank : Int}
    (h1 : 2 ^ stage.toNat ≤ my_rank) (h2 : my_rank < 2 * 2 ^ stage.toNat)
    (no_of_process : Int) (p : Proc F) :
    Get_data1_body stage my_rank no_of_process p =
      ({ p with source := my_rank - 2 ^ stage.toNat },
        Call.receive (my_rank - 2 ^ stage.toNat)) := by
  simp only [Get_data1_body, I_receive_eq h, if_pos (And.intro h1 h2)]
  simp

theorem Get_data1_body_send {stage : Int} (h : stage ≤ 29) {my_rank no_of_process : Int}
    (h0 : 0 ≤ my_rank) (h1 : my_rank < 2 ^ stage.toNat)
    (h2 : my_rank + 2 ^ stage.toNat < no_of_process) (p : Proc F) :
    Get_data1_body stage my_rank no_of_process p =
      ({ p with dest := my_rank + 2 ^ stage.toNat },
        Call.send (my_rank + 2 ^ stage.toNat)) := by
  have hn : ¬ (2 ^ stage.toNat ≤ my_rank ∧ my_rank < 2 * 2 ^ stage.toNat) := by omega
  have hn2 : ¬ (my_rank + 2 ^ stage.toNat ≥ no_of_process) := by omega
  simp only [Get_data1_body, I_receive_eq h, I_send_eq (by omega : stage ≤ 30) h0, if_neg hn,
    if_pos h1, if_neg hn2]
  simp

theorem Get_data1_body_last {stage : Int} (h : stage ≤ 29) {my_rank no_of_process : Int}
    (h0 : 0 ≤ my_rank) (h1 : my_rank < 2 ^ stage.toNat)
    (h2 : no_of_process ≤ my_rank + 2 ^ stage.toNat) (p : Proc F) :
    Get_data1_body stage my_rank no_of_process p =
      ({ p with dest := my_rank + 2 ^ stage.toNat }, Call.idle) := by
  have hn : ¬ (2 ^ stage.toNat ≤ my_rank ∧ my_rank < 2 * 2 ^ stage.toNat) := by omega
  have hn2 : my_rank + 2 ^ stage.toNat ≥ no_of_process := by omega
  simp only [Get_data1_body, I_receive_eq h, I_send_eq (by omega : stage ≤ 30) h0, if_neg hn,
    if_pos h1, if_pos hn2]
  simp

theorem Get_data1_body_later {stage : Int} (h : stage ≤ 29) {my_rank : Int}
    (h1 : 2 * 2 ^ stage.toNat ≤ my_rank) (no_of_process : Int) (p : Proc F) :
    Get_data1_body stage my_rank no_of_process p = (p, Call.idle) := by
  have hk := two_pow_pos_int stage.toNat
  have hn : ¬ (2 ^ stage.toNat ≤ my_rank ∧ my_rank < 2 * 2 ^ stage.toNat) := by omega
  have hn1 : ¬ (my_rank < 2 ^ stage.toNat) := by omega
  simp only [Get_data1_body, I_receive_eq h, I_send_eq (by omega : stage ≤ 30)
    (by omega : 0 ≤ my_rank), if_neg hn, if_neg hn1]
  simp

theorem Holds_start (no_of_process : Int) (a b : F) (n : Int) (init : Int → Proc F) :
    Holds no_of_process a b 0 (start no_of_process a b n init) := by
  intro r hr0 hrP
  unfold start
  rw [if_pos ⟨hr0, hrP⟩]
  by_cases h : r = 0
  · rw [if_pos h]
    refine ⟨_, rfl, fun _ => ?_⟩
    exact ⟨rfl, rfl⟩
  · rw [if_neg h]
    refine ⟨_, rfl, fun hlt => ?_⟩
    simp at hlt
    omega

theorem Holds_step {no_of_process : Int} {a b : F} {stage : Int} (hs0 : 0 ≤ stage)
    (hs : stage ≤ 29) {w : World F} (hw : Holds no_of_process a b stage w) :
    Holds no_of_process a b (stage + 1) (stage_step stage no_of_process w) := by
  intro r hr0 hrP
  obtain ⟨p, hp, hpa⟩ := hw r hr0 hrP
  have hk := two_pow_pos_int stage.toNat
  rw [two_pow_toNat_succ hs0]
  unfold stage_step
  simp only [hp]
  by_cases c1 : r < 2 ^ stage.toNat
  · by_cases c2 : r + 2 ^ stage.toNat < no_of_process
    · -- the process sends to `r + 2 ^ stage`
      rw [Get_data1_body_send hs hr0 c1 c2]
      obtain ⟨pd, hpd, -⟩ := hw (r + 2 ^ stage.toNat) (by omega) c2
      have haw : awaited stage no_of_process w (r + 2 ^ stage.toNat) = some r := by
        unfold awaited
        simp only [hpd]
        rw [Get_data1_body_receive hs (by omega) (by omega)]
        simp
      simp only [haw, if_true]
      refine ⟨_, rfl, fun _ => ?_⟩
      exact hpa c1
    · rw [Get_data1_body_last hs hr0 c1 (by omega)]
      refine ⟨_, rfl, fun _ => ?_⟩
      exact hpa c1
  · by_cases c3 : r < 2 * 2 ^ stage.toNat
    · -- the process receives from `r - 2 ^ stage`
      rw [Get_data1_body_receive hs (by omega) c3]
      obtain ⟨pq, hpq, hpqa⟩ := hw (r - 2 ^ stage.toNat) (by omega) (by omega)
      have hpost : posted stage no_of_process w (r - 2 ^ stage.toNat) =
          some (Send pq.a pq.b pq.n r) := by
        unfold posted
        simp only [hpq]
        rw [Get_data1_body_send hs (by omega) (by omega) (by omega)]
        simp
      simp only [hpost, Send, if_true]
      refine ⟨_, rfl, fun _ => ?_⟩
      simp only [Receive]
      exact hpqa (by omega)
    · rw [Get_data1_body_later hs (by omega)]
      refine ⟨_, rfl, fun hlt => ?_⟩
      exact absurd hlt c3

theorem Holds_loop {no_of_process : Int} (h1 : 1 ≤ no_of_process)
    (h2 : no_of_process ≤ 1073741824) (a b : F) (k : Nat) :
    ∀ (stage : Int) (w : World F), (ceiling_log2 no_of_process - stage).toNat = k →
      0 ≤ stage → stage ≤ ceiling_log2 no_of_process → Holds no_of_process a b stage w →
      Holds no_of_process a b (ceiling_log2 no_of_process)
        (Get_data1_loop no_of_process stage w) := by
  have hL := ceiling_log2_le_30 h1 h2
  induction k with
  | zero =>
    intro stage w hk hs0 hsL hw
    rw [Get_data1_loop, if_neg (by omega)]
    have : stage = ceiling_log2 no_of_process := by omega
    rw [← this]
    exact hw
  | succ k ih =>
    intro stage w hk hs0 hsL hw
    rw [Get_data1_loop, if_pos (by omega)]
    exact ih (stage + 1) _ (by omega) (by omega) (by omega) (Holds_step hs0 (by omega) hw)

/-- Delivery of the bounds for group sizes up to `2 ^ 30`. -/
theorem Get_data1_delivers {no_of_process : Int} (h1 : 1 ≤ no_of_process)
    (h2 : no_of_process ≤ 1073741824) (a b : F) (n : Int) (init : Int → Proc F)
    {r : Int} (hr0 : 0 ≤ r) (hrP : r < no_of_process) :
    ∃ p, Get_data1 no_of_process a b n init r = some p ∧ p.a = a ∧ p.b = b := by
  have hL0 := ceiling_log2_nonneg h1 (by omega : no_of_process ≤ 4294967296)
  have hfin := Holds_loop h1 h2 a b _ 0 (start no_of_process a b n init) rfl
    (le_refl 0) hL0 (Holds_start no_of_process a b n init)
  obtain ⟨p, hp, hpa⟩ := hfin r hr0 hrP
  have hle := le_two_pow_ceiling_log2 h1 (by omega : no_of_process ≤ 4294967296)
  exact ⟨p, hp, hpa (by omega)⟩

theorem stage_step_idle {stage no_of_process my_rank : Int} (w : World F)
    (h : ∀ p : Proc F, Get_data1_body stage my_rank no_of_process p = (p, Call.idle)) :
    stage_step stage no_of_process w my_rank = w my_rank := by
  unfold stage_step
  cases hw : w my_rank with
  | none => rfl
  | some p => simp only [h p]

theorem Get_data1_loop_idle {no_of_process my_rank : Int} (k : Nat) :
    ∀ (stage : Int) (w : World F), (ceiling_log2 no_of_process - stage).toNat = k →
      (∀ t : Int, stage ≤ t → t < ceiling_log2 no_of_process → ∀ p : Proc F,
        Get_data1_body t my_rank no_of_process p = (p, Call.idle)) →
      Get_data1_loop no_of_process stage w my_rank = w my_rank := by
  induction k with
  | zero =>
    intro stage w hk _
    rw [Get_data1_loop, if_neg (by omega)]
  | succ k ih =>
    intro stage w hk hidle
    rw [Get_data1_loop, if_pos (by omega)]
    rw [ih (stage + 1) _ (by omega) (fun t h1 h2 => hidle t (by omega) h2)]
    exact stage_step_idle w (hidle stage (le_refl _) (by omega))

/-- Below `2 ^ 31` processes the stage loop runs stages `0 .. 30` at most. -/
theorem ceiling_log2_stage_le_30 {x t : Int} (h1 : 1 ≤ x) (h2 : x < 2147483648) (ht0 : 0 ≤ t)
    (ht : t < ceiling_log2 x) : t ≤ 30 := by
  by_contra hc
  have h3 := (lt_ceiling_log2_iff h1 (by omega) ht0).mp ht
  have h4 : (2 : Int) ^ (31 : Nat) ≤ 2 ^ t.toNat := two_pow_le_int (by omega)
  norm_num at h4
  omega

theorem Get_data1_body_stage_30 (no_of_process : Int) (p : Proc F) :
    Get_data1_body 30 1073741824 no_of_process p = (p, Call.idle) := by
  have h1 : I_receive 30 1073741824 p.source = (0, p.source) := by
    simp [I_receive, shl32, wrap32]
  have h2 : I_send 30 1073741824 no_of_process p.dest = (0, p.dest) := by
    simp [I_send, shl32, wrap32]
  simp only [Get_data1_body, h1, h2]
  simp

/-- In a group of `2 ^ 30 + 1` processes the process of rank `2 ^ 30` makes no MPI call. -/
theorem Get_data1_rank_2_pow_30 (a b : F) (n : Int) (init : Int → Proc F) :
    Get_data1 1073741825 a b n init 1073741824 = some (init 1073741824) := by
  unfold Get_data1
  rw [Get_data1_loop_idle _ 0 _ rfl]
  · simp [start]
  · intro t ht0 htL p
    have h31 : t ≤ 30 := ceiling_log2_stage_le_30 (by norm_num) (by norm_num) ht0 htL
    by_cases h30 : t = 30
    · subst h30
      exact Get_data1_body_stage_30 _ p
    · have h5 : (2 : Int) ^ t.toNat ≤ 2 ^ 29 := two_pow_toNat_le (by omega)
      norm_num at h5
      exact Get_data1_body_later (by omega) (by omega) _ p

theorem I_receive_rank_2_pow_30 {s : Int} (h0 : 0 ≤ s) (h30 : s ≤ 30) (source : Int) :
    (I_receive s 1073741824 source).1 = 0 := by
  by_cases h : s = 30
  · subst h
    simp [I_receive, shl32, wrap32]
  · rw [I_receive_eq (by omega)]
    have h5 : (2 : Int) ^ s.toNat ≤ 2 ^ 29 := two_pow_toNat_le (by omega)
    norm_num at h5
    rw [if_neg (by omega)]

/-- The run of the stage loop in a group of four: two stages. -/
theorem Get_data1_loop_four (w : World F) :
    Get_data1_loop 4 0 w = stage_step 1 4 (stage_step 0 4 w) := by
  have h4 : ceiling_log2 4 = 2 := ceiling_log2_small.2.2.2.1
  rw [Get_data1_loop, if_pos (by rw [h4]; norm_num)]
  rw [Get_data1_loop, if_pos (by rw [h4]; norm_num)]
  rw [Get_data1_loop, if_neg (by rw [h4]; norm_num)]
  norm_num

/-- The count every rank of a group of four holds after `Get_data1`, for any count `n` read
by rank 0: one conversion to `float` and back per hop. -/
theorem Get_data1_four_count (a b : F) (n : Int) (init : Int → Proc F) :
    (Get_data1 4 a b n init 0).map (fun p => p.n) = some n ∧
    (Get_data1 4 a b n init 1).map (fun p => p.n) = some (to_signed (float_bits n)) ∧
    (Get_data1 4 a b n init 2).map (fun p => p.n) = some (to_signed (float_bits n)) ∧
    (Get_data1 4 a b n init 3).map (fun p => p.n) =
      some (to_signed (float_bits (to_signed (float_bits n)))) := by
  unfold Get_data1
  rw [Get_data1_loop_four]
  refine ⟨?_, ?_, ?_, ?_⟩ <;>
    simp [start, stage_step, posted, awaited, Get_data1_body, I_receive, I_send, shl32, wrap32,
      Send, Receive]

theorem float_bits_1024 :
    to_signed (float_bits 1024) = 1149239296 ∧
      to_signed (float_bits 1149239296) = 1317601280 := by
  decide

/-! ## The reduce block -/

theorem reduce_recv_eq {no_of_process source : Int} (h1 : 1 ≤ source)
    (h2 : source < no_of_process) (integral : Int → ℚ) :
    reduce_recv no_of_process integral source 0 = some (integral source) := by
  unfold reduce_recv reduce_sends
  rw [if_pos ⟨by omega, h2⟩, if_neg (by omega)]
  simp

theorem reduce_loop_eq {no_of_process : Int} (integral : Int → ℚ) (k : Nat) :
    ∀ (source : Int) (total : ℚ), (no_of_process - source).toNat = k → 1 ≤ source →
      source ≤ no_of_process →
      reduce_loop no_of_process integral source total =
        some (total + ∑ j ∈ Finset.range k, integral (source + (j : Int))) := by
  induction k with
  | zero =>
    intro source total hk _ _
    rw [reduce_loop, if_neg (by omega)]
    simp
  | succ k ih =>
    intro source total hk h1 h2
    rw [reduce_loop, if_pos (by omega), reduce_recv_eq h1 (by omega)]
    simp only
    rw [ih (source + 1) _ (by omega) (by omega) (by omega), Finset.sum_range_succ']
    congr 1
    have : ∀ j : Nat, source + 1 + (j : Int) = source + ((j + 1 : Nat) : Int) := by
      intro j
      push_cast
      ring
    simp only [this]
    push_cast
    simp only [add_zero]
    ring

/-- Process 0 ends the reduce block with the sum of the local values of all ranks. -/
theorem reduce_block_eq {no_of_process : Int} (h1 : 1 ≤ no_of_process) (integral : Int → ℚ) :
    reduce_block no_of_process integral =
      some (∑ r ∈ Finset.range no_of_process.toNat, integral (r : Int)) := by
  unfold reduce_block
  rw [reduce_loop_eq integral (no_of_process - 1).toNat 1 _ rfl (le_refl 1) h1]
  have hP : no_of_process.toNat = (no_of_process - 1).toNat + 1 := by omega
  rw [hP, Finset.sum_range_succ']
  congr 1
  rw [add_comm]
  congr 1
  · apply Finset.sum_congr rfl
    intro j _
    congr 1
    push_cast
    ring

/-! ## The trapezoid rule -/

theorem calculate_integral_loop_eq (m : Int) (h : ℚ) (k : Nat) :
    ∀ (i : Int) (x integral : ℚ), i + (k : Int) = m →
      calculate_integral_loop (m : ℚ) h i x integral =
        (x + (k : ℚ) * h, integral + ∑ j ∈ Finset.range k, f (x + ((j : ℚ) + 1) * h)) := by
  induction k with
  | zero =>
    intro i x integral hi
    have hc : ¬ ((i : ℚ) ≤ (m : ℚ) - 1) := by
      have : i = m := by omega
      subst this
      linarith
    rw [calculate_integral_loop, if_neg hc]
    simp
  | succ k ih =>
    intro i x integral hi
    have hc : (i : ℚ) ≤ (m : ℚ) - 1 := by
      have : i ≤ m - 1 := by omega
      have h2 : ((i : Int) : ℚ) ≤ ((m - 1 : Int) : ℚ) := by exact_mod_cast this
      push_cast at h2
      exact h2
    rw [calculate_integral_loop, if_pos hc, ih (i + 1) _ _ (by omega), Finset.sum_range_succ']
    refine Prod.ext ?_ ?_
    · simp only
      push_cast
      ring
    · simp only
      have : ∀ j : Nat, x + h + ((j : ℚ) + 1) * h = x + (((j + 1 : Nat) : ℚ) + 1) * h := by
        intro j
        push_cast
        ring
      simp only [this]
      push_cast
      simp only [zero_add, one_mul]
      ring

theorem integral_seq_loop_eq (n : Int) (h : ℚ) (k : Nat) :
    ∀ (i : Int) (x integral : ℚ), i + (k : Int) = n →
      integral_seq_loop n h i x integral =
        (x + (k : ℚ) * h, integral + ∑ j ∈ Finset.range k, f (x + ((j : ℚ) + 1) * h)) := by
  induction k with
  | zero =>
    intro i x integral hi
    rw [integral_seq_loop, if_neg (by omega)]
    simp
  | succ k ih =>
    intro i x integral hi
    rw [integral_seq_loop, if_pos (by omega), ih (i + 1) _ _ (by omega), Finset.sum_range_succ']
    refine Prod.ext ?_ ?_
    · simp only
      push_cast
      ring
    · simp only
      have : ∀ j : Nat, x + h + ((j : ℚ) + 1) * h = x + (((j + 1 : Nat) : ℚ) + 1) * h := by
        intro j
        push_cast
        ring
      simp only [this]
      push_cast
      simp only [zero_add, one_mul]
      ring

/-- With a whole number `m ≥ 1` of trapezoids, `calculate_integral` is the trapezoid sum. -/
theorem calculate_integral_eq (local_a local_b h : ℚ) {m : Nat} (hm : 1 ≤ m) :
    calculate_integral local_a local_b (m : ℚ) h =
      ((f local_a + f local_b) / 2 +
        ∑ j ∈ Finset.range (m - 1), f (local_a + ((j : ℚ) + 1) * h)) * h := by
  have key := calculate_integral_loop_eq (m : Int) h (m - 1) 1 local_a
    ((f local_a + f local_b) / 2) (by omega)
  simp only [Int.cast_natCast] at key
  unfold calculate_integral
  simp only
  rw [key]

/-- A trapezoid sum is the sum of the averages over its intervals. -/
theorem trapezoid_sum_eq (g : Nat → ℚ) (m : Nat) :
    (g 0 + g (m + 1)) / 2 + ∑ j ∈ Finset.range m, g (j + 1) =
      ∑ j ∈ Finset.range (m + 1), (g j + g (j + 1)) / 2 := by
  induction m with
  | zero => simp
  | succ m ih =>
    rw [Finset.sum_range_succ _ (m + 1), ← ih, Finset.sum_range_succ]
    ring

/-- Sums over consecutive blocks of length `m` add up to the sum over the whole range. -/
theorem sum_blocks_eq (u : Nat → ℚ) (m P : Nat) :
    ∑ r ∈ Finset.range P, ∑ j ∈ Finset.range m, u (r * m + j) =
      ∑ t ∈ Finset.range (P * m), u t := by
  induction P with
  | zero => simp
  | succ P ih =>
    rw [Finset.sum_range_succ, ih, Nat.succ_mul, Finset.sum_range_add]

/-- The estimate of integral_seq.c is the trapezoid estimate of the specification. -/
theorem integral_seq_main_eq (a b : ℚ) (n : Nat) (hn : 1 ≤ n) :
    integral_seq_main a b (n : Int) = trapezoid_estimate a b n := by
  unfold integral_seq_main trapezoid_estimate
  simp only
  rw [integral_seq_loop_eq (n : Int) _ (n - 1) 1 _ _ (by omega)]
  simp only
  rw [Finset.sum_Ico_eq_sum_range, mul_comm]
  simp only [Int.cast_natCast]
  refine congrArg (fun t => (b - a) / (n : ℚ) * ((f a + f b) / 2 + t)) ?_
  apply Finset.sum_congr rfl
  intro j _
  congr 1
  push_cast
  ring

/-- The local integral of rank `r` in integral_parallel.c, with `n = P * m` trapezoids. -/
theorem integral_parallel_local_eq (a b : ℚ) {P m r : Nat} (hm : 1 ≤ m)
    (hP : 1 ≤ P) (hn : P * m < 2147483648) (hr : r < P) :
    integral_parallel_local a b ((P * m : Nat) : Int) (P : Int) (r : Int) =
      (∑ j ∈ Finset.range m,
        (f (a + ((r * m + j : Nat) : ℚ) * ((b - a) / ((P * m : Nat) : ℚ))) +
          f (a + ((r * m + j + 1 : Nat) : ℚ) * ((b - a) / ((P * m : Nat) : ℚ)))) / 2) *
        ((b - a) / ((P * m : Nat) : ℚ)) := by
  have hdiv : Int.tdiv ((P * m : Nat) : Int) (P : Int) = (m : Int) := by
    rw [Int.tdiv_eq_ediv (by positivity) (by positivity)]
    push_cast
    exact Int.mul_ediv_cancel_left _ (by omega)
  have hrm : r * m < 2147483648 := by
    have : r * m ≤ P * m := Nat.mul_le_mul_right m (by omega)
    omega
  have hwrap : wrap32 ((r : Int) * (m : Int)) = ((r * m : Nat) : Int) := by
    rw [wrap32_of_range]
    · push_cast
      rfl
    · have : (0 : Int) ≤ ((r * m : Nat) : Int) := Int.ofNat_nonneg _
      push_cast at this
      omega
    · have : ((r * m : Nat) : Int) < 2147483648 := by exact_mod_cast hrm
      push_cast at this
      exact this
  unfold integral_parallel_local
  simp only [hdiv, hwrap, Int.cast_natCast]
  rw [calculate_integral_eq _ _ _ hm]
  refine congrArg (fun t => t * ((b - a) / ((P * m : Nat) : ℚ))) ?_
  obtain ⟨k, rfl⟩ : ∃ k, m = k + 1 := ⟨m - 1, by omega⟩
  simp only [Nat.add_sub_cancel]
  generalize (b - a) / ((P * (k + 1) : Nat) : ℚ) = h
  have key := trapezoid_sum_eq (fun j => f (a + ((r * (k + 1) + j : Nat) : ℚ) * h)) k
  simp only at key
  refine Eq.trans ?_ key
  have e1 : a + ((r * (k + 1) : Nat) : ℚ) * h = a + ((r * (k + 1) + 0 : Nat) : ℚ) * h := by
    simp
  have e2 : a + ((r * (k + 1) : Nat) : ℚ) * h + ((k + 1 : Nat) : ℚ) * h =
      a + ((r * (k + 1) + (k + 1) : Nat) : ℚ) * h := by
    push_cast
    ring
  have e3 : ∀ j : Nat, a + ((r * (k + 1) : Nat) : ℚ) * h + ((j : ℚ) + 1) * h =
      a + ((r * (k + 1) + (j + 1) : Nat) : ℚ) * h := by
    intro j
    push_cast
    ring
  rw [← e1, e2]
  simp only [e3]

/-- The total of integral_parallel.c is the estimate of integral_seq.c. -/
theorem integral_parallel_main_eq (a b : ℚ) (P m : Nat) (hm : 1 ≤ m) (hP : 1 ≤ P)
    (hn : P * m < 2147483648) :
    integral_parallel_main a b ((P * m : Nat) : Int) (P : Int) =
      some (integral_seq_main a b ((P * m : Nat) : Int)) := by
  have hn1 : 1 ≤ P * m := Nat.mul_pos hP hm
  unfold integral_parallel_main
  rw [reduce_block_eq (by exact_mod_cast hP)]
  congr 1
  rw [Int.toNat_ofNat]
  rw [Finset.sum_congr rfl (fun r hr =>
    integral_parallel_local_eq a b hm hP hn (Finset.mem_range.mp hr))]
  rw [← Finset.sum_mul]
  rw [sum_blocks_eq (fun t => (f (a + ((t : Nat) : ℚ) * ((b - a) / ((P * m : Nat) : ℚ))) +
          f (a + ((t + 1 : Nat) : ℚ) * ((b - a) / ((P * m : Nat) : ℚ)))) / 2) m P]
  unfold integral_seq_main
  simp only
  rw [integral_seq_loop_eq ((P * m : Nat) : Int) _ (P * m - 1) 1 _ _ (by omega)]
  simp only
  congr 1
  obtain ⟨k, hk⟩ : ∃ k, P * m = k + 1 := ⟨P * m - 1, by omega⟩
  rw [hk]
  simp only [Nat.add_sub_cancel]
  have hq : ((k + 1 : Nat) : ℚ) ≠ 0 := by positivity
  generalize hh : (b - a) / ((k + 1 : Nat) : ℚ) = h
  have hb : a + ((k + 1 : Nat) : ℚ) * h = b := by
    rw [← hh]
    field_simp
  have key := trapezoid_sum_eq (fun t => f (a + ((t : Nat) : ℚ) * h)) k
  simp only at key
  rw [← key, hb]
  congr 1
  · simp
  · apply Finset.sum_congr rfl
    intro j _
    congr 1
    push_cast
    ring

/-- Closed form of the inner sum of the trapezoid rule for `f(x) = x * x`. -/
theorem sum_f_closed (x h : ℚ) (k : Nat) :
    ∑ j ∈ Finset.range k, f (x + ((j : ℚ) + 1) * h) =
      (k : ℚ) * x * x + x * h * (k : ℚ) * ((k : ℚ) + 1) +
        h * h * (k : ℚ) * ((k : ℚ) + 1) * (2 * (k : ℚ) + 1) / 6 := by
  induction k with
  | zero => simp
  | succ k ih =>
    rw [Finset.sum_range_succ, ih]
    unfold f
    push_cast
    ring

/-- The local integral of rank `r < 4` in integral_tree_send.c for `a = 0`, `b = 1`,
`n = 1024`: the trapezoid sum over `[64 r, 64 r + 64]` with step `1/4`. -/
theorem integral_tree_send_local_1024 {r : Nat} (hr : r < 4) :
    integral_tree_send_local 0 1 1024 4 (r : Int) =
      ((f (64 * (r : ℚ)) + f (64 * (r : ℚ) + 64)) / 2 +
        ∑ j ∈ Finset.range 255, f (64 * (r : ℚ) + ((j : ℚ) + 1) * (1 / 4))) * (1 / 4) := by
  have hdiv : Int.tdiv 1024 4 = 256 := by decide
  have hwrap : wrap32 ((r : Int) * 256) = (r : Int) * 256 :=
    wrap32_of_range (by omega) (by omega)
  have key := calculate_integral_eq (64 * (r : ℚ)) (64 * (r : ℚ) + 64) (1 / 4)
    (by norm_num : 1 ≤ 256)
  simp only [Nat.cast_ofNat] at key
  unfold integral_tree_send_local
  simp only [hdiv, hwrap]
  have e1 : (0 : ℚ) + (((r : Int) * 256 : Int) : ℚ) * ((1 - 0) / ((4 : Int) : ℚ)) =
      64 * (r : ℚ) := by
    push_cast
    ring
  have e2 : 64 * (r : ℚ) + ((256 : Int) : ℚ) * ((1 - 0) / ((4 : Int) : ℚ)) =
      64 * (r : ℚ) + 64 := by
    push_cast
    ring
  have e3 : ((1 : ℚ) - 0) / ((4 : Int) : ℚ) = 1 / 4 := by
    push_cast
    ring
  rw [e1, e2, e3]
  have e4 : ((256 : Int) : ℚ) = 256 := by norm_num
  rw [e4]
  exact key

theorem integral_tree_send_main_1024 : integral_tree_send_main 0 1 1024 4 = some 5592408 := by
  unfold integral_tree_send_main
  rw [reduce_block_eq (by norm_num)]
  congr 1
  have h4 : (4 : Int).toNat = 4 := by decide
  rw [h4]
  rw [Finset.sum_congr rfl (fun r hr => integral_tree_send_local_1024 (Finset.mem_range.mp hr))]
  simp only [sum_f_closed]
  simp only [Finset.sum_range_succ, Finset.sum_range_zero]
  unfold f
  norm_num

/-- The total of integral_parallel.c for the same input: within `1e-4` of `1/3`. -/
theorem integral_parallel_main_1024 :
    integral_parallel_main 0 1 1024 4 = some (699051 / 2097152) ∧
      |(699051 / 2097152 : ℚ) - 1 / 3| < 1 / 10000 := by
  constructor
  · have h := integral_parallel_main_eq 0 1 4 256 (by norm_num) (by norm_num)
      (by norm_num)
    have hs := integral_seq_main_eq 0 1 1024 (by norm_num)
    norm_num at h hs
    rw [h, hs]
    congr 1
    unfold trapezoid_estimate
    rw [Finset.sum_Ico_eq_sum_range]
    have e : ∀ j : Nat, (0 : ℚ) + ((1 + j : Nat) : ℚ) * ((1 - 0) / ((1024 : Nat) : ℚ)) =
        0 + ((j : ℚ) + 1) * (1 / 1024) := by
      intro j
      push_cast
      ring
    simp only [e, sum_f_closed]
    unfold f
    norm_num
  · rw [abs_lt]
    constructor <;> norm_num

/-! ## The claims -/

/-- C1, as amended.  Tree broadcast delivers the bounds for every group size
`1 ≤ P ≤ 2 ^ 30`: whatever the processes hold before the call, after the stage loop of
`Get_data1` every rank `r` in `[0, P)` has left the loop (no call stays blocked) holding
`a` and `b` equal to the values rank 0 read. -/
theorem Get_data1_delivers_bounds {F : Type} (P : Int) (h1 : 1 ≤ P) (h2 : P ≤ 1073741824)
    (a b : F) (n : Int) (init : Int → Proc F) (r : Int) (hr0 : 0 ≤ r) (hrP : r < P) :
    ∃ p, Get_data1 P a b n init r = some p ∧ p.a = a ∧ p.b = b :=
  Get_data1_delivers h1 h2 a b n init hr0 hrP

/-- Witness of C1: a group of four, rank 3, bounds 0 and 1. -/
theorem Get_data1_delivers_bounds_witness :
    (1 : Int) ≤ 4 ∧ (4 : Int) ≤ 1073741824 ∧ (0 : Int) ≤ 3 ∧ (3 : Int) < 4 ∧
      ∃ p, Get_data1 4 (0 : ℚ) 1 1024 (fun _ => ⟨7, 7, 0, 0, 0⟩) 3 = some p ∧
        p.a = 0 ∧ p.b = 1 :=
  ⟨by norm_num, by norm_num, by norm_num, by norm_num,
    Get_data1_delivers_bounds 4 (by norm_num) (by norm_num) 0 1 1024 _ 3 (by norm_num)
      (by norm_num)⟩

/-- Counterexample to C1 as stated (every `P ≥ 1`): in a group of `2 ^ 30 + 1` processes the
rank `2 ^ 30` never receives, because `2 * power_2_stage` leaves the `int` range at stage
30; it ends the loop with the bounds it started with. -/
theorem Get_data1_bounds_counterexample :
    ¬ (∀ r : Int, 0 ≤ r → r < 1073741825 →
        ∃ p, Get_data1 1073741825 (0 : ℚ) 1 1024 (fun _ => ⟨7, 7, 0, 0, 0⟩) r = some p ∧
          p.a = 0 ∧ p.b = 1) := by
  intro h
  obtain ⟨p, hp, hpa, -⟩ := h 1073741824 (by norm_num) (by norm_num)
  rw [Get_data1_rank_2_pow_30] at hp
  have hp2 : p = ⟨7, 7, 0, 0, 0⟩ := (Option.some.inj hp).symm
  rw [hp2] at hpa
  norm_num at hpa

/-- C2, the code at the failing input `P = 4`, `n = 1024`: rank 0 keeps 1024, ranks 1 and 2
end with the word of the `float` 1024.0 read as an `int`, rank 3 with that value converted
once more. -/
theorem Get_data1_count_1024 {F : Type} (a b : F) (init : Int → Proc F) :
    (Get_data1 4 a b 1024 init 0).map (fun p => p.n) = some 1024 ∧
    (Get_data1 4 a b 1024 init 1).map (fun p => p.n) = some 1149239296 ∧
    (Get_data1 4 a b 1024 init 2).map (fun p => p.n) = some 1149239296 ∧
    (Get_data1 4 a b 1024 init 3).map (fun p => p.n) = some 1317601280 := by
  have h := Get_data1_four_count a b 1024 init
  rw [float_bits_1024.1, float_bits_1024.2] at h
  exact h

/-- C3.  For every `P` in `[1, 1000000]`, `ceiling_log2 P` is the least `k ≥ 0` with
`2 ^ k ≥ P` (the ceiling of the base-2 logarithm, `Nat.clog 2 P`); and
`ceiling_log2` maps 1, 2, 3, 4, 5 to 0, 1, 2, 2, 3. -/
theorem ceiling_log2_is_ceiling (P : Int) (h1 : 1 ≤ P) (h2 : P ≤ 1000000) :
    (∃ k : Nat, ceiling_log2 P = (k : Int) ∧ k = Nat.clog 2 P.toNat ∧ P ≤ 2 ^ k ∧
      ∀ j : Nat, P ≤ 2 ^ j → k ≤ j) ∧
    ceiling_log2 1 = 0 ∧ ceiling_log2 2 = 1 ∧ ceiling_log2 3 = 2 ∧ ceiling_log2 4 = 2 ∧
      ceiling_log2 5 = 3 :=
  ⟨ceiling_log2_least h1 (by omega), ceiling_log2_small⟩

/-- Witness of C3 at `P = 1000000`. -/
theorem ceiling_log2_is_ceiling_witness :
    (1 : Int) ≤ 1000000 ∧ (1000000 : Int) ≤ 1000000 ∧
      ((∃ k : Nat, ceiling_log2 1000000 = (k : Int) ∧ k = Nat.clog 2 (1000000 : Int).toNat ∧
        (1000000 : Int) ≤ 2 ^ k ∧ ∀ j : Nat, (1000000 : Int) ≤ 2 ^ j → k ≤ j) ∧
      ceiling_log2 1 = 0 ∧ ceiling_log2 2 = 1 ∧ ceiling_log2 3 = 2 ∧ ceiling_log2 4 = 2 ∧
        ceiling_log2 5 = 3) :=
  ⟨by norm_num, by norm_num, ceiling_log2_is_ceiling 1000000 (by norm_num) (by norm_num)⟩

/-- C4.  Linear reduce-to-root: for every `P ≥ 1` and local values `v`, process 0 leaves the
reduce block (no receive blocks) with `total = v 0 + v 1 + .. + v (P-1)`, every rank
counted once. -/
theorem reduce_block_sums_every_rank (P : Int) (h1 : 1 ≤ P) (v : Int → ℚ) :
    reduce_block P v = some (∑ r ∈ Finset.range P.toNat, v (r : Int)) :=
  reduce_block_eq h1 v

/-- Witness of C4: `P = 4` and the values 1, 2, 3, 4 give the total 10. -/
theorem reduce_block_sums_every_rank_witness :
    (1 : Int) ≤ 4 ∧ reduce_block 4 (fun r => (r : ℚ) + 1) = some 10 :=
  ⟨by norm_num, (reduce_block_sums_every_rank 4 (by norm_num) _).trans (by
    have h4 : (4 : Int).toNat = 4 := by decide
    rw [h4]
    simp only [Finset.sum_range_succ, Finset.sum_range_zero]
    norm_num)⟩

/-- C5, as amended.  For every group size `1 ≤ P ≤ 2 ^ 30` and every rank `r` in `[1, P)`
there is exactly one stage `s` in `[0, ceiling_log2 P)` at which `I_receive` returns 1; and
for rank 0 `I_receive` returns 0 at every stage. -/
theorem I_receive_exactly_once (P : Int) (h1 : 1 ≤ P) (h2 : P ≤ 1073741824) :
    (∀ r source : Int, 1 ≤ r → r < P →
      ∃! s : Int, 0 ≤ s ∧ s < ceiling_log2 P ∧ (I_receive s r source).1 = 1) ∧
    (∀ s source : Int, (I_receive s 0 source).1 = 0) :=
  ⟨fun _ source hr1 hr2 => I_receive_unique_stage h1 h2 hr1 hr2 source,
    fun s source => I_receive_rank_zero s source⟩

/-- Witness of C5 at `P = 17`. -/
theorem I_receive_exactly_once_witness :
    (1 : Int) ≤ 17 ∧ (17 : Int) ≤ 1073741824 ∧
      ((∀ r source : Int, 1 ≤ r → r < 17 →
        ∃! s : Int, 0 ≤ s ∧ s < ceiling_log2 17 ∧ (I_receive s r source).1 = 1) ∧
      (∀ s source : Int, (I_receive s 0 source).1 = 0)) :=
  ⟨by norm_num, by norm_num, I_receive_exactly_once 17 (by norm_num) (by norm_num)⟩

/-- Counterexample to C5 as stated (every `P ≥ 1`): for `P = 2 ^ 30 + 1` the rank
`r = 2 ^ 30` has no stage in `[0, ceiling_log2 P)` at which `I_receive` returns 1. -/
theorem I_receive_exactly_once_counterexample :
    ¬ (∃! s : Int, 0 ≤ s ∧ s < ceiling_log2 1073741825 ∧
        (I_receive s 1073741824 0).1 = 1) := by
  rintro ⟨s, ⟨hs0, hsL, hs1⟩, -⟩
  have h30 := ceiling_log2_stage_le_30 (by norm_num) (by norm_num) hs0 hsL
  rw [I_receive_rank_2_pow_30 hs0 h30] at hs1
  norm_num at hs1

/-- C6.  `I_receive` and `I_send` return 0 or 1 and never both return 1, for every stage,
rank and group size (in particular for `P ≥ 1`, `s` in `[0, ceiling_log2 P)`, `r` in
`[0, P)`). -/
theorem I_receive_I_send_never_both (P s r source dest : Int) :
    ((I_receive s r source).1 = 0 ∨ (I_receive s r source).1 = 1) ∧
    ((I_send s r P dest).1 = 0 ∨ (I_send s r P dest).1 = 1) ∧
    ¬ ((I_receive s r source).1 = 1 ∧ (I_send s r P dest).1 = 1) :=
  I_receive_I_send_exclusive s r P source dest

/-- C7.  For `0 ≤ s ≤ 29` and `r ≥ 0`, with `k = 2 ^ s`: `I_receive(s, r)` returns 1 if and
only if `k ≤ r < 2k` (and 0 otherwise), and when it returns 1 the source written is
`r - k`. -/
theorem I_receive_implements_ReceivesAt (s r source : Int) (_h0 : 0 ≤ s) (h29 : s ≤ 29)
    (_hr : 0 ≤ r) :
    ((I_receive s r source).1 = 1 ↔ 2 ^ s.toNat ≤ r ∧ r < 2 * 2 ^ s.toNat) ∧
    ((I_receive s r source).1 = 1 → (I_receive s r source).2 = r - 2 ^ s.toNat) ∧
    ((I_receive s r source).1 = 0 ∨ (I_receive s r source).1 = 1) := by
  rw [I_receive_eq h29]
  split_ifs with hc
  · simp [hc]
  · simp [hc]

/-- Witness of C7: at stage 1 rank 3 receives from rank 1. -/
theorem I_receive_implements_ReceivesAt_witness :
    (0 : Int) ≤ 1 ∧ (1 : Int) ≤ 29 ∧ (0 : Int) ≤ 3 ∧
      (((I_receive 1 3 0).1 = 1 ↔ 2 ^ (1 : Int).toNat ≤ (3 : Int) ∧
          (3 : Int) < 2 * 2 ^ (1 : Int).toNat) ∧
        ((I_receive 1 3 0).1 = 1 → (I_receive 1 3 0).2 = 3 - 2 ^ (1 : Int).toNat) ∧
        ((I_receive 1 3 0).1 = 0 ∨ (I_receive 1 3 0).1 = 1)) ∧
      I_receive 1 3 0 = (1, 1) :=
  ⟨by norm_num, by norm_num, by norm_num,
    I_receive_implements_ReceivesAt 1 3 0 (by norm_num) (by norm_num) (by norm_num),
    by decide⟩

/-- C8.  For `0 ≤ s ≤ 29`, `P ≥ 1` and `r` in `[0, P)`, with `k = 2 ^ s`: `I_send(s, r, P)`
returns 1 if and only if `r < k` and `r + k < P` (and 0 otherwise), and when it returns 1
the destination written is `r + k`. -/
theorem I_send_implements_SendsAt (s r P dest : Int) (_h0 : 0 ≤ s) (h29 : s ≤ 29)
    (_hP : 1 ≤ P) (hr0 : 0 ≤ r) (_hrP : r < P) :
    ((I_send s r P dest).1 = 1 ↔ r < 2 ^ s.toNat ∧ r + 2 ^ s.toNat < P) ∧
    ((I_send s r P dest).1 = 1 → (I_send s r P dest).2 = r + 2 ^ s.toNat) ∧
    ((I_send s r P dest).1 = 0 ∨ (I_send s r P dest).1 = 1) := by
  rw [I_send_eq (by omega) hr0]
  split_ifs with hc1 hc2
  · simp only [zero_ne_one, false_iff, not_and, not_lt, false_implies, true_or, and_true]
    intro _
    omega
  · simp only [true_iff, true_implies, or_true, and_true]
    exact ⟨hc1, by omega⟩
  · simp [hc1]

/-- Witness of C8, the diagram of the file header: at stage 1 with `P = 4`, rank 0 sends to
rank 2 and rank 1 sends to rank 3. -/
theorem I_send_implements_SendsAt_witness :
    (0 : Int) ≤ 1 ∧ (1 : Int) ≤ 29 ∧ (1 : Int) ≤ 4 ∧ (0 : Int) ≤ 1 ∧ (1 : Int) < 4 ∧
      (((I_send 1 1 4 0).1 = 1 ↔ (1 : Int) < 2 ^ (1 : Int).toNat ∧
          (1 : Int) + 2 ^ (1 : Int).toNat < 4) ∧
        ((I_send 1 1 4 0).1 = 1 → (I_send 1 1 4 0).2 = 1 + 2 ^ (1 : Int).toNat) ∧
        ((I_send 1 1 4 0).1 = 0 ∨ (I_send 1 1 4 0).1 = 1)) ∧
      I_send 1 0 4 0 = (1, 2) ∧ I_send 1 1 4 0 = (1, 3) :=
  ⟨by norm_num, by norm_num, by norm_num, by norm_num, by norm_num,
    I_send_implements_SendsAt 1 1 4 0 (by norm_num) (by norm_num) (by norm_num) (by norm_num)
      (by norm_num),
    by decide, by decide⟩

/-- C9, the code at the failing input `P = 4`, `a = 0`, `b = 1`, `n = 1024`: with
`h = (b - a) / no_of_process` the total of integral_tree_send.c is 5592408, which is not
within `1e-4` of `1/3`. -/
theorem integral_tree_send_main_end_to_end :
    integral_tree_send_main 0 1 1024 4 = some 5592408 ∧
      ¬ (|(5592408 : ℚ) - 1 / 3| < 1 / 10000) := by
  refine ⟨integral_tree_send_main_1024, ?_⟩
  rw [abs_lt]
  norm_num

/-- C10.  In exact arithmetic, for all bounds `a`, `b`, every `int` count `n ≥ 1` and every
`P ≥ 1` dividing `n`, the total process 0 accumulates in integral_parallel.c is the estimate
integral_seq.c computes, which is `h * ((f a + f b) / 2 + sum_{i=1}^{n-1} f (a + i * h))`
with `h = (b - a) / n`. -/
theorem integral_parallel_equals_sequential (a b : ℚ) (n P : Int) (hn : 1 ≤ n)
    (hn2 : n < 2147483648) (hP : 1 ≤ P) (hd : P ∣ n) :
    integral_parallel_main a b n P = some (integral_seq_main a b n) ∧
      integral_seq_main a b n = trapezoid_estimate a b n.toNat := by
  obtain ⟨m, hm⟩ := hd
  have hm1 : 1 ≤ m := by
    by_contra hc
    have : P * m ≤ 0 := Int.mul_nonpos_of_nonneg_of_nonpos (by omega) (by omega)
    omega
  obtain ⟨P', rfl⟩ : ∃ P' : Nat, P = (P' : Int) := ⟨P.toNat, by omega⟩
  obtain ⟨m', rfl⟩ : ∃ m' : Nat, m = (m' : Int) := ⟨m.toNat, by omega⟩
  have hn' : n = ((P' * m' : Nat) : Int) := by
    rw [hm]
    push_cast
    rfl
  subst hn'
  have hP' : 1 ≤ P' := by exact_mod_cast hP
  have hm' : 1 ≤ m' := by exact_mod_cast hm1
  have hlt : P' * m' < 2147483648 := by exact_mod_cast hn2
  refine ⟨integral_parallel_main_eq a b P' m' hm' hP' hlt, ?_⟩
  rw [Int.toNat_ofNat]
  exact integral_seq_main_eq a b (P' * m') (Nat.mul_pos hP' hm')

/-- Witness of C10: the hardwired input of integral_parallel.c with four processes. -/
theorem integral_parallel_equals_sequential_witness :
    (1 : Int) ≤ 1024 ∧ (1024 : Int) < 2147483648 ∧ (1 : Int) ≤ 4 ∧ (4 : Int) ∣ 1024 ∧
      (integral_parallel_main 0 1 1024 4 = some (integral_seq_main 0 1 1024) ∧
        integral_seq_main 0 1 1024 = trapezoid_estimate 0 1 (1024 : Int).toNat) :=
  ⟨by norm_num, by norm_num, by norm_num, by norm_num,
    integral_parallel_equals_sequential 0 1 1024 4 (by norm_num) (by norm_num) (by norm_num)
      (by norm_num)⟩

/-! ## Pairing of sends and receives -/

/-- Below stage 30, `I_send` returns 1 with destination `d` exactly when `I_receive` returns 1
at `d` with the sender as source, for a destination inside the group. -/
theorem I_send_iff_I_receive {stage : Int} (hs : stage ≤ 29) {r d no_of_process : Int}
    (hr0 : 0 ≤ r) (hdP : d < no_of_process) (source dest : Int) :
    I_send stage r no_of_process dest = (1, d) ↔ I_receive stage d source = (1, r) := by
  have hk := two_pow_pos_int stage.toNat
  rw [I_send_eq (by omega) hr0, I_receive_eq hs]
  split_ifs with c1 c2 c3 c3 c3 <;> simp only [Prod.mk.injEq, true_and] <;> constructor <;>
    intro e <;> omega

theorem I_send_range {stage : Int} (hs : stage ≤ 29) {r no_of_process : Int} (hr0 : 0 ≤ r)
    {dest : Int} (h : (I_send stage r no_of_process dest).1 = 1) :
    0 ≤ (I_send stage r no_of_process dest).2 ∧
      (I_send stage r no_of_process dest).2 < no_of_process := by
  have hk := two_pow_pos_int stage.toNat
  rw [I_send_eq (by omega) hr0] at h ⊢
  split_ifs at h ⊢ with c1 c2 <;> simp at h ⊢
  omega

theorem I_receive_range {stage : Int} (hs : stage ≤ 29) {d : Int} {source : Int}
    (h : (I_receive stage d source).1 = 1) :
    0 ≤ (I_receive stage d source).2 ∧ (I_receive stage d source).2 < d := by
  have hk := two_pow_pos_int stage.toNat
  rw [I_receive_eq hs] at h ⊢
  split_ifs at h ⊢ with c1 <;> simp at h ⊢
  omega

theorem pair_eta {x : Int × Int} {u v : Int} (h1 : x.1 = u) (h2 : x.2 = v) : x = (u, v) :=
  Prod.ext h1 h2

/-- Pairing inside a group of at most `2 ^ 30` ranks: the equivalence, and the unique
partner of every send and of every receive. -/
theorem pairing_in_stage {P : Int} (h1 : 1 ≤ P) (h2 : P ≤ 1073741824) {s : Int}
    (_hs0 : 0 ≤ s) (hsL : s < ceiling_log2 P) :
    (∀ r d source dest : Int, 0 ≤ r → r < P → 0 ≤ d → d < P →
      (I_send s r P dest = (1, d) ↔ I_receive s d source = (1, r))) ∧
    (∀ r source dest : Int, 0 ≤ r → r < P → (I_send s r P dest).1 = 1 →
      ∃! d : Int, 0 ≤ d ∧ d < P ∧ I_receive s d source = (1, r)) ∧
    (∀ d source dest : Int, 0 ≤ d → d < P → (I_receive s d source).1 = 1 →
      ∃! r : Int, 0 ≤ r ∧ r < P ∧ I_send s r P dest = (1, d)) := by
  have hL := ceiling_log2_le_30 h1 h2
  have hs : s ≤ 29 := by omega
  refine ⟨?_, ?_, ?_⟩
  · intro r d source dest hr0 _ _ hdP
    exact I_send_iff_I_receive hs hr0 hdP source dest
  · intro r source dest hr0 _ hsend
    obtain ⟨hd0, hdP⟩ := I_send_range hs hr0 hsend
    refine ⟨(I_send s r P dest).2, ⟨hd0, hdP, ?_⟩, ?_⟩
    · exact (I_send_iff_I_receive hs hr0 hdP source dest).mp (pair_eta hsend rfl)
    · rintro d ⟨_, hdP2, hrecv⟩
      have hsnd := (I_send_iff_I_receive hs hr0 hdP2 source dest).mpr hrecv
      rw [hsnd]
  · intro d source dest _ hdP hrecv
    obtain ⟨hr0, hrd⟩ := I_receive_range hs hrecv
    refine ⟨(I_receive s d source).2, ⟨hr0, by omega, ?_⟩, ?_⟩
    · exact (I_send_iff_I_receive hs hr0 hdP source dest).mpr (pair_eta hrecv rfl)
    · rintro r ⟨hr0b, _, hsnd⟩
      have hrcv := (I_send_iff_I_receive hs hr0b hdP source dest).mp hsnd
      rw [hrcv]

theorem stage_30_in_loop : (30 : Int) < ceiling_log2 1073741825 := by
  rw [lt_ceiling_log2_iff (by norm_num) (by norm_num) (by norm_num)]
  decide

theorem stage_30_unpaired :
    I_send 30 0 1073741825 0 = (1, 1073741824) ∧ I_receive 30 1073741824 0 = (0, 0) := by
  constructor
  · simp [I_send, shl32, wrap32]
  · simp [I_receive, shl32, wrap32]

/-! ## One process in the stage loop -/

theorem ceiling_log2_one : ceiling_log2 1 = 0 := ceiling_log2_small.1

theorem Get_data1_calls_one (my_rank : Int) (p : Proc F) :
    Get_data1_calls 1 my_rank 0 p = [] := by
  rw [Get_data1_calls, if_neg (by rw [ceiling_log2_one]; norm_num)]

theorem Get_data1_one (a b : F) (n : Int) (init : Int → Proc F) :
    Get_data1 1 a b n init 0 = some { init 0 with a := a, b := b, n := n } := by
  unfold Get_data1
  rw [Get_data1_loop, if_neg (by rw [ceiling_log2_one]; norm_num)]
  simp [start]

theorem reduce_recv_calls_one : reduce_recv_calls 1 1 = [] := by
  rw [reduce_recv_calls, if_neg (by norm_num)]

theorem reduce_block_one (integral : Int → ℚ) : reduce_block 1 integral = some (integral 0) := by
  unfold reduce_block
  rw [reduce_loop, if_neg (by norm_num)]

/-! ## The holder set of the stage loop -/

theorem Holders_start (no_of_process : Int) (a b : F) (n : Int) (init : Int → Proc F) :
    Holders no_of_process a b init 0 (start no_of_process a b n init) := by
  intro r hr0 hrP
  unfold start
  rw [if_pos ⟨hr0, hrP⟩]
  by_cases h : r = 0
  · rw [if_pos h]
    refine ⟨_, rfl, fun _ => ?_, fun hge => ?_⟩
    · exact ⟨rfl, rfl⟩
    · simp at hge
      omega
  · rw [if_neg h]
    refine ⟨_, rfl, fun hlt => ?_, fun _ => ?_⟩
    · simp at hlt
      omega
    · exact ⟨rfl, rfl⟩

theorem Holders_step {no_of_process : Int} {a b : F} {init : Int → Proc F} {stage : Int}
    (hs0 : 0 ≤ stage) (hs : stage ≤ 29) {w : World F}
    (hw : Holders no_of_process a b init stage w) :
    Holders no_of_process a b init (stage + 1) (stage_step stage no_of_process w) := by
  intro r hr0 hrP
  obtain ⟨p, hp, hpa, hpi⟩ := hw r hr0 hrP
  have hk := two_pow_pos_int stage.toNat
  rw [two_pow_toNat_succ hs0]
  unfold stage_step
  simp only [hp]
  by_cases c1 : r < 2 ^ stage.toNat
  · by_cases c2 : r + 2 ^ stage.toNat < no_of_process
    · rw [Get_data1_body_send hs hr0 c1 c2]
      obtain ⟨pd, hpd, -, -⟩ := hw (r + 2 ^ stage.toNat) (by omega) c2
      have haw : awaited stage no_of_process w (r + 2 ^ stage.toNat) = some r := by
        unfold awaited
        simp only [hpd]
        rw [Get_data1_body_receive hs (by omega) (by omega)]
        simp
      simp only [haw, if_true]
      refine ⟨_, rfl, fun _ => ?_, fun hge => ?_⟩
      · exact hpa c1
      · omega
    · rw [Get_data1_body_last hs hr0 c1 (by omega)]
      refine ⟨_, rfl, fun _ => ?_, fun hge => ?_⟩
      · exact hpa c1
      · omega
  · by_cases c3 : r < 2 * 2 ^ stage.toNat
    · rw [Get_data1_body_receive hs (by omega) c3]
      obtain ⟨pq, hpq, hpqa, -⟩ := hw (r - 2 ^ stage.toNat) (by omega) (by omega)
      have hpost : posted stage no_of_process w (r - 2 ^ stage.toNat) =
          some (Send pq.a pq.b pq.n r) := by
        unfold posted
        simp only [hpq]
        rw [Get_data1_body_send hs (by omega) (by omega) (by omega)]
        simp
      simp only [hpost, Send, if_true]
      refine ⟨_, rfl, fun _ => ?_, fun hge => ?_⟩
      · simp only [Receive]
        exact hpqa (by omega)
      · omega
    · rw [Get_data1_body_later hs (by omega)]
      refine ⟨_, rfl, fun hlt => ?_, fun _ => ?_⟩
      · exact absurd hlt c3
      · exact hpi (by omega)

theorem Holders_stages {no_of_process : Int} (h1 : 1 ≤ no_of_process)
    (h2 : no_of_process ≤ 1073741824) (a b : F) (n : Int) (init : Int → Proc F) (s : Nat) :
    (s : Int) ≤ ceiling_log2 no_of_process →
      Holders no_of_process a b init (s : Int)
        (Get_data1_stages no_of_process (start no_of_process a b n init) s) := by
  have hL := ceiling_log2_le_30 h1 h2
  induction s with
  | zero =>
    intro _
    exact Holders_start no_of_process a b n init
  | succ s ih =>
    intro hs
    have hs2 : ((s + 1 : Nat) : Int) = (s : Int) + 1 := by push_cast; rfl
    rw [hs2] at hs ⊢
    exact Holders_step (Int.ofNat_nonneg s) (by omega) (ih (by omega))

/-- The stage loop of `Get_data1` ends with the processes of the start of stage
`ceiling_log2 P`. -/
theorem Get_data1_loop_eq_stages (no_of_process : Int) (w : World F) (k : Nat) :
    ∀ s : Nat, (ceiling_log2 no_of_process - (s : Int)).toNat = k →
      (s : Int) ≤ ceiling_log2 no_of_process →
      Get_data1_loop no_of_process (s : Int) (Get_data1_stages no_of_process w s) =
        Get_data1_stages no_of_process w (ceiling_log2 no_of_process).toNat := by
  induction k with
  | zero =>
    intro s hk hs
    have e : (ceiling_log2 no_of_process).toNat = s := by omega
    rw [Get_data1_loop, if_neg (by omega), e]
  | succ k ih =>
    intro s hk hs
    rw [Get_data1_loop, if_pos (by omega)]
    have h := ih (s + 1) (by push_cast; omega) (by push_cast; omega)
    have hs2 : ((s + 1 : Nat) : Int) = (s : Int) + 1 := by push_cast; rfl
    rw [hs2] at h
    exact h

theorem Get_data1_eq_stages {no_of_process : Int} (h1 : 1 ≤ no_of_process)
    (h2 : no_of_process ≤ 4294967296) (a b : F) (n : Int) (init : Int → Proc F) :
    Get_data1 no_of_process a b n init =
      Get_data1_stages no_of_process (start no_of_process a b n init)
        (ceiling_log2 no_of_process).toNat := by
  have hL0 := ceiling_log2_nonneg h1 h2
  exact Get_data1_loop_eq_stages no_of_process _ _ 0 rfl (by exact_mod_cast hL0)

theorem Get_data1_stages_idle {no_of_process my_rank : Int} (w : World F) (k : Nat)
    (h : ∀ t : Nat, t < k → ∀ p : Proc F,
      Get_data1_body (t : Int) my_rank no_of_process p = (p, Call.idle)) :
    Get_data1_stages no_of_process w k my_rank = w my_rank := by
  induction k with
  | zero => rfl
  | succ k ih =>
    show stage_step (k : Int) no_of_process (Get_data1_stages no_of_process w k) my_rank = _
    rw [stage_step_idle _ (h k (by omega)), ih (fun t ht => h t (by omega))]

/-- A rank lies below `2 ^ s` exactly when the stage count of `r + 1` is at most `s`. -/
theorem lt_two_pow_iff_ceiling_log2 {r : Int} (hr0 : 0 ≤ r) (hr : r < 2147483648) (s : Nat) :
    r < 2 ^ s ↔ ceiling_log2 (r + 1) ≤ (s : Int) := by
  have h := lt_ceiling_log2_iff (by omega : 1 ≤ r + 1) (by omega) (Int.ofNat_nonneg s)
  simp only [Int.toNat_ofNat] at h
  constructor
  · intro hlt
    by_contra hc
    have := h.mp (by omega)
    omega
  · intro hle
    by_contra hc
    have := h.mpr (by omega)
    omega

/-- A rank `r ≥ 1` receives at stage `ceiling_log2 (r + 1) - 1`, from `r - 2 ^ stage`. -/
theorem I_receive_at_ceiling_log2 {r : Int} (hr1 : 1 ≤ r) (hr : r ≤ 1073741823)
    (source : Int) :
    0 ≤ ceiling_log2 (r + 1) - 1 ∧
      I_receive (ceiling_log2 (r + 1) - 1) r source =
        (1, r - 2 ^ (ceiling_log2 (r + 1) - 1).toNat) := by
  have hx1 : (1 : Int) ≤ r + 1 := by omega
  have hL30 := ceiling_log2_le_30 hx1 (by omega : r + 1 ≤ 1073741824)
  have hpos : 0 < ceiling_log2 (r + 1) := by
    rw [lt_ceiling_log2_iff hx1 (by omega) (le_refl 0)]
    simp
    omega
  have hlow := (lt_ceiling_log2_iff hx1 (by omega)
    (by omega : 0 ≤ ceiling_log2 (r + 1) - 1)).mp (by omega)
  have hup := le_two_pow_ceiling_log2 hx1 (by omega : r + 1 ≤ 4294967296)
  have hsucc := two_pow_toNat_succ (by omega : 0 ≤ ceiling_log2 (r + 1) - 1)
  rw [sub_add_cancel] at hsucc
  refine ⟨by omega, ?_⟩
  rw [I_receive_eq (by omega), if_pos ⟨by omega, by omega⟩]

/-! ## The way from a rank back to the root -/

/-- The search for the receiving stage of a rank in `[2 ^ s, 2 * 2 ^ s)` passes the stages
below `s` and stops at `s`. -/
theorem receive_stage_eq {no_of_process r s : Int} (hsL : s < ceiling_log2 no_of_process)
    (hs29 : s ≤ 29) (h1 : 2 ^ s.toNat ≤ r) (h2 : r < 2 * 2 ^ s.toNat) (k : Nat) :
    ∀ t : Int, 0 ≤ t → t ≤ s → (s - t).toNat = k →
      receive_stage no_of_process r t = some (s, r - 2 ^ s.toNat) := by
  induction k with
  | zero =>
    intro t _ hts hk
    have e : t = s := by omega
    subst e
    have e : I_receive t r 0 = (1, r - 2 ^ t.toNat) := by
      rw [I_receive_eq hs29, if_pos ⟨h1, h2⟩]
    rw [receive_stage, if_pos hsL, e]
    simp
  | succ k ih =>
    intro t ht0 hts hk
    have hmono : (2 : Int) ^ (t + 1).toNat ≤ 2 ^ s.toNat := two_pow_le_int (by omega)
    rw [two_pow_toNat_succ ht0] at hmono
    have e : I_receive t r 0 = (0, 0) := by
      rw [I_receive_eq (by omega), if_neg (by omega)]
    rw [receive_stage, if_pos (by omega), e]
    simp only [ne_eq, not_true_eq_false, if_false]
    exact ih (t + 1) (by omega) (by omega) (by omega)

theorem receive_stage_none {no_of_process r : Int} (k : Nat) :
    ∀ t : Int, (ceiling_log2 no_of_process - t).toNat = k →
      (∀ u : Int, t ≤ u → u < ceiling_log2 no_of_process → (I_receive u r 0).1 = 0) →
      receive_stage no_of_process r t = none := by
  induction k with
  | zero =>
    intro t hk _
    rw [receive_stage, if_neg (by omega)]
  | succ k ih =>
    intro t hk h
    rw [receive_stage, if_pos (by omega), h t (le_refl t) (by omega)]
    simp only [ne_eq, not_true_eq_false, if_false]
    exact ih (t + 1) (by omega) (fun u hu1 hu2 => h u (by omega) hu2)

theorem route_zero (no_of_process : Int) (fuel : Nat) : route no_of_process fuel 0 = some [] := by
  cases fuel <;> simp [route]

theorem route_succ {no_of_process r s source : Int} (hr : r ≠ 0) (fuel : Nat)
    (h : receive_stage no_of_process r 0 = some (s, source)) :
    route no_of_process (fuel + 1) r =
      (route no_of_process fuel source).map (fun hops => (s, source) :: hops) := by
  simp only [route, if_neg hr, h]

theorem route_none {no_of_process r : Int} (hr : r ≠ 0)
    (h : receive_stage no_of_process r 0 = none) (fuel : Nat) :
    route no_of_process fuel r = none := by
  cases fuel <;> simp [route, hr, h]

/-- In a group of at most `2 ^ 30` ranks a rank below `2 ^ t` is reached from rank 0 in at
most `t` hops. -/
theorem route_exists {P : Int} (h1 : 1 ≤ P) (h2 : P ≤ 1073741824) (t : Nat) :
    ∀ (r : Int) (fuel : Nat), 0 ≤ r → r < 2 ^ t → r < P → t ≤ fuel →
      ∃ hops, route P fuel r = some hops ∧ hops.length ≤ t ∧
        (1 ≤ r → 1 ≤ hops.length) ∧ good_route P r (t : Int) hops := by
  induction t using Nat.strong_induction_on with
  | _ t ih =>
    intro r fuel hr0 hrt hrP hfuel
    by_cases hz : r = 0
    · subst hz
      refine ⟨[], route_zero P fuel, Nat.zero_le _, fun h => ?_, ?_⟩
      · omega
      · simp [good_route]
    · obtain ⟨m, rfl⟩ : ∃ m : Nat, r = (m : Int) := ⟨r.toNat, by omega⟩
      have hm : m ≠ 0 := by
        intro h
        apply hz
        rw [h]
        rfl
      have hlog1 : 2 ^ Nat.log 2 m ≤ m := Nat.pow_log_le_self 2 hm
      have hlog2 : m < 2 ^ (Nat.log 2 m + 1) := Nat.lt_pow_succ_log_self (by norm_num) _
      have e1 : (2 : Int) ^ Nat.log 2 m ≤ (m : Int) := by exact_mod_cast hlog1
      have e2 : (m : Int) < 2 * (2 : Int) ^ Nat.log 2 m := by
        have : ((m : Nat) : Int) < ((2 ^ (Nat.log 2 m + 1) : Nat) : Int) := by
          exact_mod_cast hlog2
        rw [pow_succ] at this
        push_cast at this
        omega
      have hst : Nat.log 2 m < t := by
        have : m < 2 ^ t := by exact_mod_cast hrt
        exact (Nat.pow_lt_pow_iff_right (by norm_num : 1 < 2)).mp (lt_of_le_of_lt hlog1 this)
      have hL := ceiling_log2_le_30 h1 h2
      have hsL : ((Nat.log 2 m : Nat) : Int) < ceiling_log2 P := by
        rw [lt_ceiling_log2_iff h1 (by omega) (Int.ofNat_nonneg _)]
        simp only [Int.toNat_ofNat]
        omega
      have hrecv := receive_stage_eq hsL (by omega)
        (by simpa only [Int.toNat_ofNat] using e1)
        (by simpa only [Int.toNat_ofNat] using e2) _ 0 (le_refl 0) (Int.ofNat_nonneg _) rfl
      simp only [Int.toNat_ofNat] at hrecv
      obtain ⟨fuel1, rfl⟩ : ∃ fuel1, fuel = fuel1 + 1 := ⟨fuel - 1, by omega⟩
      have hk := two_pow_pos_int (Nat.log 2 m)
      obtain ⟨hops, hroute, hlen, -, hgood⟩ := ih (Nat.log 2 m) hst
        ((m : Int) - 2 ^ Nat.log 2 m) fuel1 (by omega) (by omega) (by omega) (by omega)
      refine ⟨(((Nat.log 2 m : Nat) : Int), (m : Int) - 2 ^ Nat.log 2 m) :: hops,
        ?_, ?_, ?_, ?_⟩
      · rw [route_succ hz fuel1 hrecv, hroute]
        rfl
      · simp only [List.length_cons]
        omega
      · intro _
        simp only [List.length_cons]
        omega
      · simp only [good_route]
        refine ⟨Int.ofNat_nonneg _, by omega, ?_, by omega, by omega, by omega, hgood⟩
        rw [I_receive_eq (by omega)]
        simp only [Int.toNat_ofNat]
        rw [if_pos ⟨e1, e2⟩]

/-! ## The block-distributed dot product -/

theorem Read_vector_scan_eq (stdin : Nat → ℚ) {m : Nat} (hm : m ≤ 100) (k : Nat) :
    ∀ (i pos : Nat) (v : Int → ℚ), i + k = m →
      Read_vector_scan stdin (m : Int) (i : Int) pos v =
        some (fun j => if (i : Int) ≤ j ∧ j < (m : Int) then stdin (pos + (j - (i : Int)).toNat)
          else v j, pos + k) := by
  induction k with
  | zero =>
    intro i pos v hi
    rw [Read_vector_scan, if_neg (by omega)]
    congr 1
    refine Prod.ext ?_ rfl
    funext j
    simp only
    rw [if_neg (by omega)]
  | succ k ih =>
    intro i pos v hi
    rw [Read_vector_scan, if_pos (by omega), if_pos (by unfold MAX_LOCAL_ORDER; omega)]
    have h := ih (i + 1) (pos + 1) (Function.update v (i : Int) (stdin pos)) (by omega)
    have hc : ((i + 1 : Nat) : Int) = (i : Int) + 1 := by push_cast; rfl
    rw [hc] at h
    rw [h]
    congr 1
    refine Prod.ext ?_ (by simp only; omega)
    funext j
    simp only
    by_cases c1 : (i : Int) + 1 ≤ j ∧ j < (m : Int)
    · rw [if_pos c1, if_pos (by omega)]
      congr 1
      omega
    · rw [if_neg c1]
      by_cases c2 : j = (i : Int)
      · subst c2
        rw [Function.update_same, if_pos (by omega)]
        congr 1
        simp
      · rw [Function.update_noteq c2, if_neg (by omega)]

theorem Read_vector_scan_zero (stdin : Nat → ℚ) {m : Nat} (hm : m ≤ 100) (pos : Nat)
    (v : Int → ℚ) :
    ∃ arr : Int → ℚ, Read_vector_scan stdin (m : Int) 0 pos v = some (arr, pos + m) ∧
      ∀ j : Nat, j < m → arr (j : Int) = stdin (pos + j) := by
  have h := Read_vector_scan_eq stdin hm m 0 pos v (by omega)
  refine ⟨_, h, fun j hj => ?_⟩
  rw [if_pos (by push_cast; omega)]
  congr 1

/-- The messages of process 0 in `Read_vector`: the process `d` is sent the block of
`local_arr_size` entries of standard input that follows the blocks of the processes before
it. -/
theorem Read_vector_send_loop_eq (stdin : Nat → ℚ) {m : Nat} (hm : m ≤ 100) (P : Int)
    (k : Nat) :
    ∀ (process : Int) (pos : Nat) (temp_arr : Int → ℚ) (sent : Int → Option (Int → ℚ)),
      (P - process).toNat = k →
      ∃ sent1, Read_vector_send_loop stdin (m : Int) P process pos temp_arr sent =
          some (sent1, pos + k * m) ∧
        (∀ d : Int, process ≤ d → d < P → ∃ arr : Int → ℚ, sent1 d = some arr ∧
          ∀ j : Nat, j < m → arr (j : Int) = stdin (pos + (d - process).toNat * m + j)) ∧
        (∀ d : Int, d < process → sent1 d = sent d) := by
  induction k with
  | zero =>
    intro process pos temp_arr sent hk
    rw [Read_vector_send_loop, if_neg (by omega)]
    refine ⟨sent, by simp, fun d h1 h2 => ?_, fun d _ => rfl⟩
    omega
  | succ k ih =>
    intro process pos temp_arr sent hk
    obtain ⟨arr, hscan, harr⟩ := Read_vector_scan_zero stdin hm pos temp_arr
    rw [Read_vector_send_loop, if_pos (by omega), hscan]
    simp only
    obtain ⟨sent1, hloop, hin, hout⟩ := ih (process + 1) (pos + m) arr
      (Function.update sent process (some arr)) (by omega)
    refine ⟨sent1, ?_, fun d h1 h2 => ?_, fun d hd => ?_⟩
    · rw [hloop]
      congr 2
      ring
    · by_cases c : d = process
      · subst c
        rw [hout d (by omega), Function.update_same]
        refine ⟨arr, rfl, fun j hj => ?_⟩
        rw [harr j hj]
        congr 1
        simp
      · obtain ⟨arr2, h2a, h2b⟩ := hin d (by omega) h2
        refine ⟨arr2, h2a, fun j hj => ?_⟩
        rw [h2b j hj]
        congr 1
        have e : (d - process).toNat = (d - (process + 1)).toNat + 1 := by omega
        rw [e]
        ring
    · rw [hout d (by omega), Function.update_noteq (by omega)]

/-- The block distribution of `Read_vector`: every rank `r` of the group ends with the
entries `r * m .. r * m + m - 1` of the vector read from standard input. -/
theorem Read_vector_blocks (stdin : Nat → ℚ) {m : Nat} (hm : m ≤ 100) {P : Nat} (hP : 1 ≤ P)
    (pos : Nat) (local_v : Int → Int → ℚ) :
    ∃ vs, Read_vector stdin (m : Int) (P : Int) pos local_v = some (vs, pos + P * m) ∧
      ∀ r : Nat, r < P → ∃ arr : Int → ℚ, vs (r : Int) = some arr ∧
        ∀ j : Nat, j < m → arr (j : Int) = stdin (pos + r * m + j) := by
  obtain ⟨arr0, hscan, harr0⟩ := Read_vector_scan_zero stdin hm pos (local_v 0)
  obtain ⟨sent, hloop, hin, -⟩ := Read_vector_send_loop_eq stdin hm (P : Int) (P - 1) 1
    (pos + m) (fun _ => 0) (fun _ => none) (by omega)
  have hroot : Read_vector_root stdin (m : Int) (P : Int) pos (local_v 0) =
      some (arr0, sent, pos + P * m) := by
    unfold Read_vector_root
    rw [hscan]
    simp only
    rw [hloop]
    simp only
    congr 3
    obtain ⟨q, rfl⟩ : ∃ q, P = q + 1 := ⟨P - 1, by omega⟩
    simp only [Nat.add_sub_cancel]
    ring
  unfold Read_vector
  rw [hroot]
  refine ⟨_, rfl, fun r hr => ?_⟩
  by_cases c : r = 0
  · subst c
    refine ⟨arr0, by simp, fun j hj => ?_⟩
    rw [harr0 j hj]
    congr 1
    simp
  · have hr0 : ((r : Nat) : Int) ≠ 0 := by
      intro h
      apply c
      exact_mod_cast h
    rw [if_neg hr0, if_pos ⟨by omega, by exact_mod_cast hr⟩]
    obtain ⟨arr, ha, hb⟩ := hin (r : Int) (by omega) (by exact_mod_cast hr)
    rw [ha]
    unfold Read_vector_recv
    simp only
    rw [if_pos (by unfold MAX_LOCAL_ORDER; exact_mod_cast hm)]
    refine ⟨_, rfl, fun j hj => ?_⟩
    rw [if_pos ⟨by omega, by exact_mod_cast hj⟩, hb j hj]
    congr 1
    have e : ((r : Int) - 1).toNat = r - 1 := by omega
    rw [e]
    obtain ⟨q, rfl⟩ : ∃ q, r = q + 1 := ⟨r - 1, by omega⟩
    simp only [Nat.add_sub_cancel]
    ring

theorem serial_dot_loop_eq (x y : Int → ℚ) (k : Nat) :
    ∀ (n i : Int) (sum : ℚ), 0 ≤ n - i → (n - i).toNat = k →
      serial_dot_loop x y n i sum =
        sum + ∑ j ∈ Finset.range k, x (i + (j : Int)) * y (i + (j : Int)) := by
  induction k with
  | zero =>
    intro n i sum _ hk
    rw [serial_dot_loop, if_neg (by omega)]
    simp
  | succ k ih =>
    intro n i sum h0 hk
    rw [serial_dot_loop, if_pos (by omega), ih n (i + 1) _ (by omega) (by omega),
      Finset.sum_range_succ']
    have e : ∀ j : Nat, i + 1 + (j : Int) = i + ((j + 1 : Nat) : Int) := by
      intro j
      push_cast
      ring
    simp only [e]
    push_cast
    simp only [add_zero]
    ring

theorem serial_dot_eq (x y : Int → ℚ) (m : Nat) :
    serial_dot x y (m : Int) = ∑ j ∈ Finset.range m, x (j : Int) * y (j : Int) := by
  unfold serial_dot
  rw [serial_dot_loop_eq x y m (m : Int) 0 0 (by omega) (by omega)]
  simp

theorem serial_dot_zero (x y : Int → ℚ) : serial_dot x y 0 = 0 := by
  unfold serial_dot
  rw [serial_dot_loop, if_neg (by norm_num)]

theorem MPI_Reduce_SUM_fold (value : Int → Option ℚ) (v : Nat → ℚ) (k : Nat)
    (h : ∀ r : Nat, r < k + 1 → value (r : Int) = some (v r)) :
    (List.range' 1 k).foldl
      (fun total (source : Nat) =>
        match total, value (source : Int) with
        | some t, some u => some (t + u)
        | _, _ => none)
      (value 0) = some (∑ r ∈ Finset.range (k + 1), v r) := by
  induction k with
  | zero =>
    have h0 := h 0 (by omega)
    simp only [Nat.cast_zero] at h0
    simp [h0]
  | succ k ih =>
    rw [List.range'_1_concat, List.foldl_append, ih (fun r hr => h r (by omega))]
    have hk := h (1 + k) (by omega)
    simp only [List.foldl_cons, List.foldl_nil, hk]
    rw [Finset.sum_range_succ _ (k + 1)]
    congr 3
    omega

/-- Rank 0 leaves `MPI_Reduce` with the sum of the values of all ranks. -/
theorem MPI_Reduce_SUM_root {P : Nat} (hP : 1 ≤ P) (value : Int → Option ℚ) (v : Nat → ℚ)
    (h : ∀ r : Nat, r < P → value (r : Int) = some (v r)) (recvbuf : ℚ) :
    MPI_Reduce_SUM (P : Int) value 0 recvbuf = some (∑ r ∈ Finset.range P, v r) := by
  unfold MPI_Reduce_SUM
  rw [if_pos rfl, Int.toNat_ofNat]
  obtain ⟨k, rfl⟩ : ∃ k, P = k + 1 := ⟨P - 1, by omega⟩
  simp only [Nat.add_sub_cancel]
  exact MPI_Reduce_SUM_fold value v k h

/-- The dot product of parellel_dot_mpi_reduce.c for `n = P * m` entries per vector. -/
theorem parallel_dot_main_eq (x y : Nat → ℚ) {m : Nat} (hm : m ≤ 100) {P : Nat} (hP : 1 ≤ P)
    (init_x init_y : Int → Int → ℚ) :
    parallel_dot_main (vectors_input x y (P * m)) ((P * m : Nat) : Int) (P : Int)
        init_x init_y =
      some (∑ i ∈ Finset.range (P * m), x i * y i) := by
  have hdiv : Int.tdiv ((P * m : Nat) : Int) (P : Int) = (m : Int) := by
    rw [Int.tdiv_eq_ediv (by positivity) (by positivity)]
    push_cast
    exact Int.mul_ediv_cancel_left _ (by omega)
  obtain ⟨xs, hxs, hxb⟩ := Read_vector_blocks (vectors_input x y (P * m)) hm hP 0 init_x
  obtain ⟨ys, hys, hyb⟩ :=
    Read_vector_blocks (vectors_input x y (P * m)) hm hP (0 + P * m) init_y
  unfold parallel_dot_main
  simp only [hdiv, hxs, hys]
  unfold Parallel_dot
  rw [MPI_Reduce_SUM_root hP _
    (fun r => ∑ j ∈ Finset.range m, x (r * m + j) * y (r * m + j))]
  · rw [sum_blocks_eq (fun t => x t * y t) m P]
  · intro r hr
    obtain ⟨ax, hax, hax2⟩ := hxb r hr
    obtain ⟨ay, hay, hay2⟩ := hyb r hr
    have hlt : ∀ j : Nat, j < m → r * m + j < P * m := by
      intro j hj
      have : (r + 1) * m ≤ P * m := Nat.mul_le_mul_right m (by omega)
      rw [Nat.succ_mul] at this
      omega
    simp only [local_dots, hax, hay]
    rw [serial_dot_eq]
    congr 1
    apply Finset.sum_congr rfl
    intro j hj
    have hj2 := Finset.mem_range.mp hj
    rw [hax2 j hj2, hay2 j hj2]
    unfold vectors_input
    rw [if_pos (by have := hlt j hj2; omega), if_neg (by omega)]
    congr 2 <;> omega

/-! ## Allreduce and print_result -/

theorem MPI_Allreduce_SUM_eq {P : Nat} (hP : 1 ≤ P) (value : Int → Option ℚ) (v : Nat → ℚ)
    (h : ∀ r : Nat, r < P → value (r : Int) = some (v r)) {r : Int} (hr0 : 0 ≤ r)
    (hrP : r < (P : Int)) :
    MPI_Allreduce_SUM (P : Int) value r = some (∑ q ∈ Finset.range P, v q) := by
  unfold MPI_Allreduce_SUM
  rw [if_pos ⟨hr0, hrP⟩]
  exact MPI_Reduce_SUM_root hP value v h 0

theorem print_result_loop_eq {P : Nat} (dot : Int → Option ℚ) (total : ℚ)
    (h : ∀ r : Nat, r < P → dot (r : Int) = some total) (k : Nat) :
    ∀ (process : Nat) (out : List (Int × ℚ)), process + k = P →
      print_result_loop (P : Int) dot (process : Int) out =
        some (out ++ (List.range' process k).map (fun r => ((r : Int), total))) := by
  induction k with
  | zero =>
    intro process out hk
    rw [print_result_loop, if_neg (by omega)]
    simp
  | succ k ih =>
    intro process out hk
    rw [print_result_loop, if_pos (by omega), h process (by omega)]
    simp only
    have h1 := ih (process + 1) (out ++ [((process : Int), total)]) (by omega)
    have hc : ((process + 1 : Nat) : Int) = (process : Int) + 1 := by push_cast; rfl
    rw [hc] at h1
    rw [h1, List.range'_succ]
    simp

/-- When every process passes the same `dot`, process 0 prints that number once for every
rank of the group, in the order of the ranks. -/
theorem print_result_eq {P : Nat} (hP : 1 ≤ P) (dot : Int → Option ℚ) (total : ℚ)
    (h : ∀ r : Nat, r < P → dot (r : Int) = some total) :
    print_result (P : Int) dot = some ((List.range P).map (fun r => ((r : Int), total))) := by
  unfold print_result
  have h0 := h 0 (by omega)
  simp only [Nat.cast_zero] at h0
  rw [h0]
  simp only
  have h1 := print_result_loop_eq dot total h (P - 1) 1 [(0, total)] (by omega)
  simp only [Nat.cast_one] at h1
  rw [h1]
  congr 1
  obtain ⟨k, rfl⟩ : ∃ k, P = k + 1 := ⟨P - 1, by omega⟩
  simp only [Nat.add_sub_cancel]
  rw [List.range_eq_range', List.range'_succ]
  simp

theorem Get_data1_stages_rank_2_pow_30 (w : World F) :
    Get_data1_stages 1073741825 w 31 1073741824 = w 1073741824 := by
  apply Get_data1_stages_idle
  intro t ht p
  by_cases h30 : t = 30
  · subst h30
    exact Get_data1_body_stage_30 _ p
  · have h5 : (2 : Int) ^ ((t : Nat) : Int).toNat ≤ 2 ^ 29 := two_pow_toNat_le (by omega)
    norm_num at h5
    exact Get_data1_body_later (by omega) (by simp only [Int.toNat_ofNat]; omega) _ p

theorem receive_stage_rank_2_pow_30 : receive_stage 1073741825 1073741824 0 = none := by
  apply receive_stage_none _ 0 rfl
  intro u hu0 huL
  exact I_receive_rank_2_pow_30 hu0
    (ceiling_log2_stage_le_30 (by norm_num) (by norm_num) hu0 huL) 0

/-! ## A process outside the group -/

/-- C11.  In exact arithmetic, for every `P ≥ 1`, every order `n ≥ 0` divisible by `P` with
`n / P ≤ 100` and all vectors `x`, `y` of `n` entries on standard input, `main` of
parellel_dot_mpi_reduce.c (blocks distributed by `Read_vector`, `serial_dot` on every block,
the `MPI_SUM` reduction of `Parallel_dot`) leaves in process 0 the dot product
`sum_{i<n} x[i] * y[i]`; and `serial_dot(x, y, 0) = 0`. -/
theorem block_dot_product (P n : Int) (hP : 1 ≤ P) (hn : 0 ≤ n) (hd : P ∣ n)
    (hm : Int.tdiv n P ≤ 100) (x y : Nat → ℚ) (init_x init_y : Int → Int → ℚ) :
    parallel_dot_main (vectors_input x y n.toNat) n P init_x init_y =
        some (∑ i ∈ Finset.range n.toNat, x i * y i) ∧
      ∀ u v : Int → ℚ, serial_dot u v 0 = 0 := by
  refine ⟨?_, serial_dot_zero⟩
  obtain ⟨m, hmn⟩ := hd
  have hm0 : 0 ≤ m := by
    by_contra hc
    have h3 : 0 < P * (-m) := Int.mul_pos (by omega) (by omega)
    rw [Int.mul_neg] at h3
    omega
  obtain ⟨P1, rfl⟩ : ∃ P1 : Nat, P = (P1 : Int) := ⟨P.toNat, by omega⟩
  obtain ⟨m1, rfl⟩ : ∃ m1 : Nat, m = (m1 : Int) := ⟨m.toNat, by omega⟩
  have hn1 : n = ((P1 * m1 : Nat) : Int) := by
    rw [hmn]
    push_cast
    rfl
  subst hn1
  have hP1 : 1 ≤ P1 := by exact_mod_cast hP
  have hdiv : Int.tdiv ((P1 * m1 : Nat) : Int) (P1 : Int) = (m1 : Int) := by
    rw [Int.tdiv_eq_ediv (by positivity) (by positivity)]
    push_cast
    exact Int.mul_ediv_cancel_left _ (by omega)
  rw [hdiv] at hm
  rw [Int.toNat_ofNat]
  exact parallel_dot_main_eq x y (by exact_mod_cast hm) hP1 init_x init_y

/-- Witness of C11: three processes, vectors of order 12. -/
theorem block_dot_product_witness :
    (1 : Int) ≤ 3 ∧ (0 : Int) ≤ 12 ∧ (3 : Int) ∣ 12 ∧ Int.tdiv 12 3 ≤ 100 ∧
      (parallel_dot_main (vectors_input (fun i => (i : ℚ) + 1) (fun i => 2 * (i : ℚ) + 1)
          (12 : Int).toNat) 12 3 (fun _ _ => 7) (fun _ _ => 9) =
        some (∑ i ∈ Finset.range (12 : Int).toNat, ((i : ℚ) + 1) * (2 * (i : ℚ) + 1)) ∧
      ∀ u v : Int → ℚ, serial_dot u v 0 = 0) :=
  ⟨by norm_num, by norm_num, by norm_num, by decide,
    block_dot_product 3 12 (by norm_num) (by norm_num) (by norm_num) (by decide) _ _ _ _⟩

/-- C12.  For every `P ≥ 1` and all local vectors, after `Parallel_dot` of
parellel_dot_mpi_all_reduce.c every rank `r` in `[0, P)` holds the same `dot`, the sum of the
local dot products of all ranks, and `print_result` prints that number for every process. -/
theorem allreduce_same_on_every_rank (P : Int) (hP : 1 ≤ P) (local_x local_y : Int → Int → ℚ)
    (vector_size : Int) :
    (∀ r : Int, 0 ≤ r → r < P →
      Parallel_dot_allreduce P (fun q => some (local_x q)) (fun q => some (local_y q))
          vector_size r =
        some (∑ q ∈ Finset.range P.toNat,
          serial_dot (local_x (q : Int)) (local_y (q : Int)) vector_size)) ∧
    print_result P
        (Parallel_dot_allreduce P (fun q => some (local_x q)) (fun q => some (local_y q))
          vector_size) =
      some ((List.range P.toNat).map (fun r => ((r : Int),
        ∑ q ∈ Finset.range P.toNat,
          serial_dot (local_x (q : Int)) (local_y (q : Int)) vector_size))) := by
  obtain ⟨P1, rfl⟩ : ∃ P1 : Nat, P = (P1 : Int) := ⟨P.toNat, by omega⟩
  have hP1 : 1 ≤ P1 := by exact_mod_cast hP
  rw [Int.toNat_ofNat]
  have hval : ∀ r : Nat, r < P1 →
      local_dots (fun q => some (local_x q)) (fun q => some (local_y q)) vector_size (r : Int) =
        some (serial_dot (local_x (r : Int)) (local_y (r : Int)) vector_size) := by
    intro r _
    rfl
  have hall : ∀ r : Int, 0 ≤ r → r < (P1 : Int) →
      Parallel_dot_allreduce (P1 : Int) (fun q => some (local_x q))
          (fun q => some (local_y q)) vector_size r =
        some (∑ q ∈ Finset.range P1,
          serial_dot (local_x (q : Int)) (local_y (q : Int)) vector_size) := by
    intro r hr0 hrP
    unfold Parallel_dot_allreduce
    exact MPI_Allreduce_SUM_eq hP1 _ _ hval hr0 hrP
  refine ⟨hall, ?_⟩
  apply print_result_eq hP1
  intro r hr
  exact hall (r : Int) (Int.ofNat_nonneg r) (by exact_mod_cast hr)

/-- Witness of C12: four processes with the local values 1, 2, 3, 4; every rank reads 10. -/
theorem allreduce_same_on_every_rank_witness :
    (1 : Int) ≤ 4 ∧
      ((∀ r : Int, 0 ≤ r → r < 4 →
        Parallel_dot_allreduce 4 (fun q => some (fun _ => (q : ℚ) + 1))
            (fun _ => some (fun _ => 1)) 1 r = some 10) ∧
      print_result 4
          (Parallel_dot_allreduce 4 (fun q => some (fun _ => (q : ℚ) + 1))
            (fun _ => some (fun _ => 1)) 1) =
        some [(0, 10), (1, 10), (2, 10), (3, 10)]) := by
  have h := allreduce_same_on_every_rank 4 (by norm_num) (fun q _ => (q : ℚ) + 1)
    (fun _ _ => 1) 1
  have h4 : (4 : Int).toNat = 4 := by decide
  have hs : ∀ q : Int, serial_dot (fun _ => (q : ℚ) + 1) (fun _ => 1) 1 = (q : ℚ) + 1 := by
    intro q
    have := serial_dot_eq (fun _ => (q : ℚ) + 1) (fun _ => 1) 1
    simpa using this
  simp only [h4, hs, Finset.sum_range_succ, Finset.sum_range_zero] at h
  norm_num at h
  refine ⟨by norm_num, h.1, ?_⟩
  rw [h.2]
  decide

/-- C13.  Group of one: `ceiling_log2 1 = 0`, the stage loop of `Get_data1` runs no
iteration (no `Send`, no `Receive`) and leaves the processes as they entered it, rank 0
holding the `a`, `b`, `n` it read; the reduce block makes no `MPI_Recv` and no `MPI_Send`
and its total is the local value of rank 0. -/
theorem degenerate_group_of_one {F : Type} (a b : F) (n : Int) (init : Int → Proc F)
    (p : Proc F) (v : Int → ℚ) :
    ceiling_log2 1 = 0 ∧
    Get_data1_calls 1 0 0 p = [] ∧
    Get_data1 1 a b n init = start 1 a b n init ∧
    Get_data1 1 a b n init 0 = some { init 0 with a := a, b := b, n := n } ∧
    reduce_recv_calls 1 1 = [] ∧
    reduce_sends 0 (v 0) = [] ∧
    reduce_block 1 v = some (v 0) := by
  refine ⟨ceiling_log2_one, Get_data1_calls_one 0 p, ?_, Get_data1_one a b n init,
    reduce_recv_calls_one, rfl, reduce_block_one v⟩
  unfold Get_data1
  rw [Get_data1_loop, if_neg (by rw [ceiling_log2_one]; norm_num)]

/-- C15, as amended.  For every group size `1 ≤ P ≤ 2 ^ 30`, every stage `s` in
`[0, ceiling_log2 P)` and all ranks `r`, `d` in `[0, P)`: `I_send(s, r, P)` returns 1 with
destination `d` if and only if `I_receive(s, d)` returns 1 with source `r`; every send has
exactly one matching receive inside the group, and every receive exactly one matching
send. -/
theorem sends_and_receives_pair_up (P : Int) (h1 : 1 ≤ P) (h2 : P ≤ 1073741824) (s : Int)
    (hs0 : 0 ≤ s) (hsL : s < ceiling_log2 P) :
    (∀ r d source dest : Int, 0 ≤ r → r < P → 0 ≤ d → d < P →
      (I_send s r P dest = (1, d) ↔ I_receive s d source = (1, r))) ∧
    (∀ r source dest : Int, 0 ≤ r → r < P → (I_send s r P dest).1 = 1 →
      ∃! d : Int, 0 ≤ d ∧ d < P ∧ I_receive s d source = (1, r)) ∧
    (∀ d source dest : Int, 0 ≤ d → d < P → (I_receive s d source).1 = 1 →
      ∃! r : Int, 0 ≤ r ∧ r < P ∧ I_send s r P dest = (1, d)) :=
  pairing_in_stage h1 h2 hs0 hsL

/-- Witness of C15: stage 1 of a group of four. -/
theorem sends_and_receives_pair_up_witness :
    (1 : Int) ≤ 4 ∧ (4 : Int) ≤ 1073741824 ∧ (0 : Int) ≤ 1 ∧ (1 : Int) < ceiling_log2 4 ∧
      ((∀ r d source dest : Int, 0 ≤ r → r < 4 → 0 ≤ d → d < 4 →
        (I_send 1 r 4 dest = (1, d) ↔ I_receive 1 d source = (1, r))) ∧
      (∀ r source dest : Int, 0 ≤ r → r < 4 → (I_send 1 r 4 dest).1 = 1 →
        ∃! d : Int, 0 ≤ d ∧ d < 4 ∧ I_receive 1 d source = (1, r)) ∧
      (∀ d source dest : Int, 0 ≤ d → d < 4 → (I_receive 1 d source).1 = 1 →
        ∃! r : Int, 0 ≤ r ∧ r < 4 ∧ I_send 1 r 4 dest = (1, d))) :=
  ⟨by norm_num, by norm_num, by norm_num, by rw [ceiling_log2_small.2.2.2.1]; norm_num,
    sends_and_receives_pair_up 4 (by norm_num) (by norm_num) 1 (by norm_num)
      (by rw [ceiling_log2_small.2.2.2.1]; norm_num)⟩

/-- Counterexample to C15 as stated (every `P ≥ 1`): in a group of `2 ^ 30 + 1` ranks, at
stage 30 rank 0 is told to send to rank `2 ^ 30`, which is not told to receive. -/
theorem sends_and_receives_counterexample :
    (30 : Int) < ceiling_log2 1073741825 ∧
      ¬ (I_send 30 0 1073741825 0 = (1, 1073741824) ↔
          I_receive 30 1073741824 0 = (1, 0)) := by
  refine ⟨stage_30_in_loop, fun h => ?_⟩
  have h1 := h.mp stage_30_unpaired.1
  have h3 : (I_receive 30 1073741824 0).1 = 1 := by rw [h1]
  rw [stage_30_unpaired.2] at h3
  norm_num at h3

/-- C16, as amended.  For every group size `1 ≤ P ≤ 2 ^ 30`, every stage `s` with
`0 ≤ s ≤ ceiling_log2 P` and every rank `r` in `[0, P)`, the other ranks starting with
bounds that differ from those of rank 0: at the start of stage `s` of the run of
`Get_data1` rank `r` holds the bounds of rank 0 if and only if `r < 2 ^ s`, that is
`ceiling_log2 (r + 1) ≤ s`; a rank `r ≥ 1` receives at stage `ceiling_log2 (r + 1) - 1`; a
rank that sends in a stage holds the bounds at its start; a rank that holds them is not
told to receive at any later stage; and the run ends with the processes of the start of
stage `ceiling_log2 P`. -/
theorem holder_set_doubles {F : Type} (P : Int) (h1 : 1 ≤ P) (h2 : P ≤ 1073741824)
    (a b : F) (n : Int) (init : Int → Proc F)
    (hinit : ∀ q : Int, 1 ≤ q → q < P → ¬ ((init q).a = a ∧ (init q).b = b))
    (s : Nat) (hs : (s : Int) ≤ ceiling_log2 P) (r : Int) (hr0 : 0 ≤ r) (hrP : r < P) :
    (∃ p, Get_data1_stages P (start P a b n init) s r = some p ∧
      ((p.a = a ∧ p.b = b) ↔ r < 2 ^ s)) ∧
    (r < 2 ^ s ↔ ceiling_log2 (r + 1) ≤ (s : Int)) ∧
    (1 ≤ r → 0 ≤ ceiling_log2 (r + 1) - 1 ∧ ceiling_log2 (r + 1) - 1 < ceiling_log2 P ∧
      ∀ source : Int, I_receive (ceiling_log2 (r + 1) - 1) r source =
        (1, r - 2 ^ (ceiling_log2 (r + 1) - 1).toNat)) ∧
    (∀ (t : Nat) (dest : Int), (t : Int) < ceiling_log2 P → (I_send (t : Int) r P dest).1 = 1 →
      ∃ p, Get_data1_stages P (start P a b n init) t r = some p ∧ p.a = a ∧ p.b = b) ∧
    (∀ t source : Int, (s : Int) ≤ t → t < ceiling_log2 P → r < 2 ^ s →
      (I_receive t r source).1 = 0) ∧
    Get_data1 P a b n init =
      Get_data1_stages P (start P a b n init) (ceiling_log2 P).toNat := by
  have hL := ceiling_log2_le_30 h1 h2
  refine ⟨?_, lt_two_pow_iff_ceiling_log2 hr0 (by omega) s, ?_, ?_, ?_,
    Get_data1_eq_stages h1 (by omega) a b n init⟩
  · obtain ⟨p, hp, hlow, hhigh⟩ := Holders_stages h1 h2 a b n init s hs r hr0 hrP
    simp only [Int.toNat_ofNat] at hlow hhigh
    refine ⟨p, hp, fun hab => ?_, hlow⟩
    by_contra hc
    have hk := two_pow_pos_int s
    have hi := hhigh (by omega)
    apply hinit r (by omega) hrP
    rw [← hi.1, ← hi.2]
    exact hab
  · intro hr1
    have hrecv := I_receive_at_ceiling_log2 hr1 (by omega)
    refine ⟨(hrecv 0).1, ?_, fun source => (hrecv source).2⟩
    have hle : ceiling_log2 (r + 1) ≤ ceiling_log2 P := by
      by_contra hc
      have h3 := (lt_ceiling_log2_iff (by omega : 1 ≤ r + 1) (by omega)
        (ceiling_log2_nonneg h1 (by omega))).mp (by omega)
      have h4 := le_two_pow_ceiling_log2 h1 (by omega : P ≤ 4294967296)
      omega
    omega
  · intro t dest htL hsend
    have hk := two_pow_pos_int t
    rw [I_send_eq (by omega) hr0] at hsend
    simp only [Int.toNat_ofNat] at hsend
    have hlt : r < 2 ^ t := by
      by_contra hc
      rw [if_neg hc] at hsend
      simp at hsend
    obtain ⟨p, hp, hlow, -⟩ := Holders_stages h1 h2 a b n init t (by omega) r hr0 hrP
    simp only [Int.toNat_ofNat] at hlow
    exact ⟨p, hp, hlow hlt⟩
  · intro t source hst htL hlt
    have hmono : (2 : Int) ^ s ≤ 2 ^ t.toNat := two_pow_le_int (by omega)
    rw [I_receive_eq (by omega), if_neg (by omega)]

/-- Witness of C16: a group of four, the start of stage 1, rank 2. -/
theorem holder_set_doubles_witness :
    (1 : Int) ≤ 4 ∧ (4 : Int) ≤ 1073741824 ∧
      (∀ q : Int, 1 ≤ q → q < 4 →
        ¬ (((fun _ => ⟨7, 7, 0, 0, 0⟩ : Int → Proc ℚ) q).a = 0 ∧
          ((fun _ => ⟨7, 7, 0, 0, 0⟩ : Int → Proc ℚ) q).b = 1)) ∧
      ((1 : Nat) : Int) ≤ ceiling_log2 4 ∧ (0 : Int) ≤ 2 ∧ (2 : Int) < 4 ∧
      ∃ p, Get_data1_stages 4 (start 4 (0 : ℚ) 1 1024 (fun _ => ⟨7, 7, 0, 0, 0⟩)) 1 2 = some p ∧
        ((p.a = 0 ∧ p.b = 1) ↔ (2 : Int) < 2 ^ 1) :=
  ⟨by norm_num, by norm_num, fun _ _ _ => by norm_num,
    by rw [ceiling_log2_small.2.2.2.1]; norm_num, by norm_num, by norm_num,
    (holder_set_doubles 4 (by norm_num) (by norm_num) 0 1 1024 (fun _ => ⟨7, 7, 0, 0, 0⟩)
      (fun _ _ _ => by norm_num) 1 (by rw [ceiling_log2_small.2.2.2.1]; norm_num) 2
      (by norm_num) (by norm_num)).1⟩

/-- Counterexample to C16 as stated (every `P ≥ 1`): in a group of `2 ^ 30 + 1` ranks, at
the start of stage `31 = ceiling_log2 P` the rank `2 ^ 30` lies below `2 ^ 31` and does not
hold the bounds of rank 0. -/
theorem holder_set_counterexample :
    ((31 : Nat) : Int) ≤ ceiling_log2 1073741825 ∧
      ¬ ((∃ p, Get_data1_stages 1073741825
            (start 1073741825 (0 : ℚ) 1 1024 (fun _ => ⟨7, 7, 0, 0, 0⟩)) 31 1073741824 =
              some p ∧ p.a = 0 ∧ p.b = 1) ↔
          (1073741824 : Int) < 2 ^ 31) := by
  refine ⟨?_, fun h => ?_⟩
  · have := stage_30_in_loop
    push_cast
    omega
  · obtain ⟨p, hp, hpa, -⟩ := h.mpr (by norm_num)
    rw [Get_data1_stages_rank_2_pow_30] at hp
    simp [start] at hp
    rw [← hp] at hpa
    norm_num at hpa

/-- C17, as amended.  For every group size `1 ≤ P ≤ 2 ^ 30` and every rank `r` in `[1, P)`,
replacing `r` by the source of its `Receive` again and again passes through smaller and
smaller ranks inside `[0, P)`, received at earlier and earlier stages, and reaches rank 0
after at least one and at most `ceiling_log2 P` hops. -/
theorem route_to_root (P : Int) (h1 : 1 ≤ P) (h2 : P ≤ 1073741824) (r : Int) (hr1 : 1 ≤ r)
    (hrP : r < P) :
    ∃ hops, route P (ceiling_log2 P).toNat r = some hops ∧ 1 ≤ hops.length ∧
      (hops.length : Int) ≤ ceiling_log2 P ∧ good_route P r (ceiling_log2 P) hops := by
  have hL0 := ceiling_log2_nonneg h1 (by omega : P ≤ 4294967296)
  have hle := le_two_pow_ceiling_log2 h1 (by omega : P ≤ 4294967296)
  obtain ⟨hops, hroute, hlen, hpos, hgood⟩ := route_exists h1 h2 (ceiling_log2 P).toNat r
    (ceiling_log2 P).toNat (by omega) (by omega) hrP (le_refl _)
  have hcast : (((ceiling_log2 P).toNat : Nat) : Int) = ceiling_log2 P := by omega
  rw [hcast] at hgood
  exact ⟨hops, hroute, hpos hr1, by omega, hgood⟩

/-- Witness of C17: rank 13 of a group of 17 is reached through ranks 5 and 1. -/
theorem route_to_root_witness :
    (1 : Int) ≤ 17 ∧ (17 : Int) ≤ 1073741824 ∧ (1 : Int) ≤ 13 ∧ (13 : Int) < 17 ∧
      ∃ hops, route 17 (ceiling_log2 17).toNat 13 = some hops ∧ 1 ≤ hops.length ∧
        (hops.length : Int) ≤ ceiling_log2 17 ∧ good_route 17 13 (ceiling_log2 17) hops :=
  ⟨by norm_num, by norm_num, by norm_num, by norm_num,
    route_to_root 17 (by norm_num) (by norm_num) 13 (by norm_num) (by norm_num)⟩

/-- Counterexample to C17 as stated (every `P ≥ 1`): in a group of `2 ^ 30 + 1` ranks the
rank `2 ^ 30` has no source, so no number of hops leads from it to rank 0. -/
theorem route_to_root_counterexample :
    ¬ ∃ (fuel : Nat) (hops : List (Int × Int)),
        route 1073741825 fuel 1073741824 = some hops := by
  rintro ⟨fuel, hops, h⟩
  rw [route_none (by norm_num) receive_stage_rank_2_pow_30 fuel] at h
  simp at h

end ParallelMPI
